import Mathlib

/-!
Verification of the reconciliation engine of project-gc (src/main.js and the
unnamed watcher module) against its natural-language specification.

Modelling conventions, used throughout:

- Local filesystem paths are modelled as normalized segment lists
  (`FPath := List String`).  The JavaScript code only ever manipulates paths
  through `path.join(dir, name)` with a separator-free `name` and through
  `path.dirname`; on such normalized inputs these operations correspond
  exactly to appending one segment (`pjoin`) and dropping the last segment
  (`List.dropLast`).  `path.join(dir, "")` returns `dir`, which `pjoin`
  reproduces.
- The filesystem is a pair of association lists: file path to byte content,
  plus the set of existing directories.  `fs.existsSync`, `fs.promises.mkdir
  (recursive)`, `fs.createReadStream` and `fs.createWriteStream` are modelled
  by `existsSync`, `mkdirRec`, `readFile` and `writeFile`.
- The S3 bucket is an association list from object key (a string) to byte
  content.  A key absent from the list models any failing `GetObject`
  (deleted object, network error): the SDK call rejects, which the source
  catches in `calculateCloudFileHash` and `getFileContentFromS3`.
- JavaScript exceptions are modelled with an explicit error component
  (`Option JsError` or `Except JsError`): a thrown exception propagates to
  the caller and aborts the remaining traversal, with the filesystem state
  reached so far preserved.
- `crypto.createHash('sha256')` over a full stream is modelled by a complete
  executable SHA-256 over the byte list (namespace `SHA256`).
- Recursions of the source that walk the filesystem or a node tree are given
  fuel (a `Nat` bound) so that every definition is executable by the kernel;
  the wrappers supply a bound that is always sufficient, and the artificial
  `JsError.outOfFuel` value never occurs at those bounds.
-/

/-! ## Byte contents, object store, filesystem -/

abbrev Bytes := List Nat

abbrev FPath := List String

/-- One S3 bucket: object key to object bytes.  A missing key models a
failing GetObject call. -/
abbrev S3Store := List (String × Bytes)

def s3get (s3 : S3Store) (key : String) : Option Bytes :=
  (s3.find? (fun e => e.1 == key)).map (fun e => e.2)

/-- The local filesystem: file contents keyed by path, plus existing
directories. -/
structure FS where
  files : List (FPath × Bytes)
  dirs : List FPath
deriving DecidableEq, Repr

def fileIn (fs : FS) (p : FPath) : Bool := fs.files.any (fun e => e.1 == p)

def dirIn (fs : FS) (p : FPath) : Bool := fs.dirs.any (fun q => q == p)

/-- Model of fs.existsSync: true for files and for directories. -/
def existsSync (fs : FS) (p : FPath) : Bool := fileIn fs p || dirIn fs p

def readFile (fs : FS) (p : FPath) : Option Bytes :=
  (fs.files.find? (fun e => e.1 == p)).map (fun e => e.2)

/-- Model of writing a full stream to a path (createWriteStream truncates an
existing file). -/
def writeFile (fs : FS) (p : FPath) (c : Bytes) : FS :=
  ⟨(p, c) :: fs.files.filter (fun e => !(e.1 == p)), fs.dirs⟩

/-- All nonempty ancestor paths of p, shortest first, ending with p itself. -/
def prefixesOf (p : FPath) : List FPath :=
  (List.range p.length).map (fun i => p.take (i + 1))

/-- Model of the JavaScript exceptions relevant to the sync path. -/
inductive JsError where
  /-- TypeError, e.g. path.dirname(null) or reading .children of a file node. -/
  | typeError
  /-- ENOENT from lstat on a missing path. -/
  | notFound
  /-- A stream or mkdir failure (EEXIST, EISDIR, unhandled stream error). -/
  | ioError
  /-- Artificial: the fuel bound of the model was exhausted (never happens
  at the bounds the wrappers supply). -/
  | outOfFuel
deriving DecidableEq, Repr

/-- Model of fs.promises.mkdir with recursive true: creates every missing
ancestor; rejects if some ancestor exists as a regular file. -/
def mkdirRec (fs : FS) (p : FPath) : Except JsError FS :=
  if (prefixesOf p).any (fun q => fileIn fs q) then .error .ioError
  else .ok ⟨fs.files, fs.dirs ++ (prefixesOf p).filter (fun q => !(dirIn fs q))⟩

/-! ## SHA-256 (crypto.createHash('sha256') over a complete stream) -/

namespace SHA256

def M32 : Nat := 4294967296

def rotr (n x : Nat) : Nat := ((x >>> n) ||| (x <<< (32 - n))) % M32

def roundK : List Nat := [
  1116352408, 1899447441, 3049323471, 3921009573, 961987163, 1508970993, 2453635748, 2870763221,
  3624381080, 310598401, 607225278, 1426881987, 1925078388, 2162078206, 2614888103, 3248222580,
  3835390401, 4022224774, 264347078, 604807628, 770255983, 1249150122, 1555081692, 1996064986,
  2554220882, 2821834349, 2952996808, 3210313671, 3336571891, 3584528711, 113926993, 338241895,
  666307205, 773529912, 1294757372, 1396182291, 1695183700, 1986661051, 2177026350, 2456956037,
  2730485921, 2820302411, 3259730800, 3345764771, 3516065817, 3600352804, 4094571909, 275423344,
  430227734, 506948616, 659060556, 883997877, 958139571, 1322822218, 1537002063, 1747873779,
  1955562222, 2024104815, 2227730452, 2361852424, 2428436474, 2756734187, 3204031479, 3329325298]

def initH : List Nat :=
  [1779033703, 3144134277, 1013904242, 2773480762, 1359893119, 2600822924, 528734635, 1541459225]

def pad (msg : Bytes) : Bytes :=
  let len := msg.length
  let z := (119 - (len % 64)) % 64
  let bitLen := len * 8
  msg ++ [0x80] ++ List.replicate z 0 ++ (List.range 8).map (fun i => (bitLen >>> (8 * (7 - i))) % 256)

def chunksGo : Nat → Bytes → List Bytes
  | 0, _ => []
  | _, [] => []
  | n + 1, l => l.take 64 :: chunksGo n (l.drop 64)

def toWords (b : Bytes) : List Nat :=
  (List.range 16).map (fun i =>
    b.getD (4 * i) 0 * 16777216 + b.getD (4 * i + 1) 0 * 65536 +
    b.getD (4 * i + 2) 0 * 256 + b.getD (4 * i + 3) 0)

def ssig0 (x : Nat) : Nat := (rotr 7 x) ^^^ (rotr 18 x) ^^^ (x >>> 3)
def ssig1 (x : Nat) : Nat := (rotr 17 x) ^^^ (rotr 19 x) ^^^ (x >>> 10)
def bsig0 (x : Nat) : Nat := (rotr 2 x) ^^^ (rotr 13 x) ^^^ (rotr 22 x)
def bsig1 (x : Nat) : Nat := (rotr 6 x) ^^^ (rotr 11 x) ^^^ (rotr 25 x)

def schedule (w16 : List Nat) : List Nat :=
  (List.range 48).foldl (fun w _ =>
    let n := w.length
    w ++ [(ssig1 (w.getD (n - 2) 0) + w.getD (n - 7) 0 +
           ssig0 (w.getD (n - 15) 0) + w.getD (n - 16) 0) % M32]) w16

def step (st : List Nat) (kw : Nat × Nat) : List Nat :=
  match st with
  | [a, b, c, d, e, f, g, h] =>
    let ch := (e &&& f) ^^^ ((e ^^^ 4294967295) &&& g)
    let mj := (a &&& b) ^^^ (a &&& c) ^^^ (b &&& c)
    let t1 := (h + bsig1 e + ch + kw.1 + kw.2) % M32
    let t2 := (bsig0 a + mj) % M32
    [(t1 + t2) % M32, a, b, c, (d + t1) % M32, e, f, g]
  | _ => st

def compress (hs : List Nat) (block : Bytes) : List Nat :=
  let w := schedule (toWords block)
  let fin := (roundK.zip w).foldl step hs
  List.zipWith (fun x y => (x + y) % M32) hs fin

def hexDigit (n : Nat) : Char := if n < 10 then Char.ofNat (48 + n) else Char.ofNat (87 + n)

def wordHex (x : Nat) : String :=
  String.mk ((List.range 8).map (fun i => hexDigit ((x >>> (4 * (7 - i))) % 16)))

end SHA256

/-- Hex-encoded SHA-256 digest of a byte sequence, as hash.digest('hex')
returns it. -/
def sha256hex (msg : Bytes) : String :=
  String.join (((SHA256.chunksGo (SHA256.pad msg).length (SHA256.pad msg)).foldl
    SHA256.compress SHA256.initH).map SHA256.wordHex)

/-! ## Change detection (calculateCloudFileHash, calculateLocalFileHash,
isFileModified from src/main.js) -/

/-- calculateCloudFileHash: GetObject then hash the body stream; any error is
caught, logged, and null (here none) is returned. -/
def calculateCloudFileHash (s3 : S3Store) (key : String) : Option String :=
  (s3get s3 key).map sha256hex

/-- calculateLocalFileHash: hash the read stream of the file.  A stream error
rejects the promise, so none here models a thrown exception (it can only
happen when the path is not a readable file). -/
def calculateLocalFileHash (fs : FS) (p : FPath) : Option String :=
  (readFile fs p).map sha256hex

/-- isFileModified from src/main.js.  none models a thrown exception from the
local hashing; the cloud hash never throws (it catches and yields null, which
compares unequal to every string under the strict inequality of the source). -/
def isFileModified (s3 : S3Store) (fs : FS) (key : String) (p : FPath) : Option Bool :=
  if !(existsSync fs p) then some true
  else
    match calculateLocalFileHash fs p with
    | none => none
    | some lh => some (decide (calculateCloudFileHash s3 key ≠ some lh))

/-! ## Hierarchy nodes -/

/-- The hierarchy node of the source: a duck-typed object with name, path,
type, isModified, and (for folders only) a children array. -/
inductive Node where
  | file (name : String) (path : String) (isModified : Bool)
  | folder (name : String) (path : String) (isModified : Bool) (children : List Node)
deriving Repr

def Node.name : Node → String
  | .file n _ _ => n
  | .folder n _ _ _ => n

def Node.path : Node → String
  | .file _ p _ => p
  | .folder _ p _ _ => p

def Node.isFolderB : Node → Bool
  | .file _ _ _ => false
  | .folder _ _ _ _ => true

/-! ## Building the remote hierarchy (getBucketHierarchy from src/main.js) -/

/-- Model of the JavaScript string split key.split(sep) for a one-character
separator, written directly over the character list. -/
def splitAux : List Char → List Char → List String
  | [], acc => [String.mk acc.reverse]
  | c :: rest, acc =>
    if c = '/' then String.mk acc.reverse :: splitAux rest []
    else splitAux rest (c :: acc)

def splitSegs (s : String) : List String := splitAux s.data []

/-- Model of Array.prototype.join with separator. -/
def joinSegs : List String → String
  | [] => ""
  | [s] => s
  | s :: s2 :: rest => s ++ "/" ++ joinSegs (s2 :: rest)

/-- First child with the given name, split out of the children list (the
children.find call of the source, which matches file and folder nodes
alike). -/
def splitAtName (s : String) : List Node → Option (List Node × Node × List Node)
  | [] => none
  | c :: rest =>
    if c.name == s then some ([], c, rest)
    else
      match splitAtName s rest with
      | none => none
      | some (a, x, b) => some (c :: a, x, b)

/-- One key insertion of getBucketHierarchy: walk the folder segments of the
key (its split with the last segment dropped), finding or creating each
folder by name among the current children, then push a File node carrying
the full key as its path.  Descending into a File node models the TypeError
the source throws there (the children array of a file node is undefined).
The counter i tracks the index used for the path field of created folders. -/
def insertGo (key : String) (parts : List String) : Nat → List String → Node → Except JsError Node
  | _, _, .file _ _ _ => .error .typeError
  | _, [], .folder n p m cs =>
    .ok (.folder n p m (cs ++ [.file (parts.getLastD "") key false]))
  | i, s :: rest, .folder n p m cs =>
    match splitAtName s cs with
    | some (pre, c, suf) =>
      match insertGo key parts (i + 1) rest c with
      | .error e => .error e
      | .ok c2 => .ok (.folder n p m (pre ++ c2 :: suf))
    | none =>
      match insertGo key parts (i + 1) rest (.folder s (joinSegs (parts.take (i + 1))) false []) with
      | .error e => .error e
      | .ok c2 => .ok (.folder n p m (cs ++ [c2]))

def buildGo : List String → Node → Except JsError Node
  | [], h => .ok h
  | k :: ks, h =>
    match insertGo k (splitSegs k) 0 (splitSegs k).dropLast h with
    | .error e => .error e
    | .ok h2 => buildGo ks h2

/-- getBucketHierarchy from src/main.js: fold the listed bucket keys into a
tree rooted at a folder named by the friendly name, with empty path. -/
def getBucketHierarchy (friendly : String) (keys : List String) : Except JsError Node :=
  buildGo keys (.folder friendly "" false [])

/-! ## Tree observations -/

mutual
/-- Positions of all file nodes: the chain of names from the given node down
to the file (the given node included), paired with the path field stored in
the file node. -/
def filePos : Node → List (List String × String)
  | .file n p _ => [([n], p)]
  | .folder n _ _ cs => (filePosL cs).map (fun pr => (n :: pr.1, pr.2))
def filePosL : List Node → List (List String × String)
  | [] => []
  | c :: cs => filePos c ++ filePosL cs
end

mutual
/-- Positions of all folder nodes (the given node included when it is a
folder), as chains of names. -/
def folderPos : Node → List (List String)
  | .file _ _ _ => []
  | .folder n _ _ cs => [n] :: (folderPosL cs).map (fun r => n :: r)
def folderPosL : List Node → List (List String)
  | [] => []
  | c :: cs => folderPos c ++ folderPosL cs
end

mutual
/-- Every folder in the tree has pairwise distinct child names. -/
def childNamesUnique : Node → Bool
  | .file _ _ _ => true
  | .folder _ _ _ cs => decide ((cs.map Node.name).Nodup) && childNamesUniqueL cs
def childNamesUniqueL : List Node → Bool
  | [] => true
  | c :: cs => childNamesUnique c && childNamesUniqueL cs
end

mutual
/-- Every node name in the tree is a nonempty string. -/
def namesNE : Node → Bool
  | .file n _ _ => !(n == "")
  | .folder n _ _ cs => !(n == "") && namesNEL cs
def namesNEL : List Node → Bool
  | [] => true
  | c :: cs => namesNE c && namesNEL cs
end

/-! ## Building the local hierarchy (getFolderHierarchy from the watcher
module) -/

def lastSeg (p : FPath) : String := p.getLastD ""

def childNameOf (p : FPath) (q : FPath) : Option String :=
  if q.length = p.length + 1 ∧ q.take p.length = p then some (q.getLastD "") else none

/-- Model of fs.promises.readdir: the names of the immediate children of a
directory.  The OS enumeration order is unspecified; this model lists file
children first, then directory children, each in stored order. -/
def readdirFS (fs : FS) (p : FPath) : List String :=
  (fs.files.map (fun e => e.1)).filterMap (childNameOf p) ++ fs.dirs.filterMap (childNameOf p)

/-- getFolderHierarchy from the watcher module: lstat the path; a file gives
a leaf node, a directory gives a folder node whose children are built
recursively from the readdir listing; a missing path rejects (ENOENT). -/
def getFolderGo (fs : FS) : Nat → FPath → Except JsError Node
  | 0, _ => .error .outOfFuel
  | fuel + 1, p =>
    if dirIn fs p then
      match (readdirFS fs p).foldr (fun n (acc : Except JsError (List Node)) =>
        match getFolderGo fs fuel (p ++ [n]), acc with
        | .ok c, .ok cs => .ok (c :: cs)
        | .error e, _ => .error e
        | _, .error e => .error e) (Except.ok []) with
      | .error e => .error e
      | .ok cs => .ok (.folder (lastSeg p) (joinSegs p) false cs)
    else if fileIn fs p then .ok (.file (lastSeg p) (joinSegs p) false)
    else .error .notFound

/-- Wrapper supplying fuel.  The bound always suffices: each recursion level
below the first visits a distinct directory whose path is strictly longer
than that of its parent, so the depth never exceeds the number of
directories plus one. -/
def getFolderHierarchy (fs : FS) (p : FPath) : Except JsError Node :=
  getFolderGo fs (fs.dirs.length + 2) p

/-- A well-formed filesystem: no path occurs twice (in particular no path is
both a file and a directory), which every real filesystem guarantees. -/
def FS.Wf (fs : FS) : Prop := (fs.files.map (fun e => e.1) ++ fs.dirs).Nodup

/-! ## Shapes (for comparing the two builders) -/

inductive Shape where
  | sfile (name : String)
  | sfolder (name : String) (children : List Shape)
deriving Repr

mutual
def shapeOf : Node → Shape
  | .file n _ _ => .sfile n
  | .folder n _ _ cs => .sfolder n (shapeOfL cs)
def shapeOfL : List Node → List Shape
  | [] => []
  | c :: cs => shapeOf c :: shapeOfL cs
end

/-- Replace the display name at the root of a shape. -/
def shapeRename (s : Shape) (n : String) : Shape :=
  match s with
  | .sfile _ => .sfile n
  | .sfolder _ cs => .sfolder n cs

/-! ## Tree materialization (getFileContentFromS3, cloneCloudRepo,
pullCloudRepo from src/main.js) -/

/-- Model of path.join(dir, name) for a separator-free name: appends one
segment; joining the empty string returns the directory unchanged, exactly
as path.join does. -/
def pjoin (p : FPath) (n : String) : FPath := if n = "" then p else p ++ [n]

/-- Observable filesystem effects, recorded so that the idempotence and
error-reporting claims can speak about fetches and writes. -/
inductive FsEvent where
  | fetch (key : String)
  | write (p : FPath)
  | mkdir (p : FPath)
deriving DecidableEq, Repr

def FsEvent.isMkdir : FsEvent → Bool
  | .mkdir _ => true
  | _ => false

/-- Result of one materialization run: final filesystem, event trace, and
the exception that aborted the run, if any. -/
structure RunRes where
  fs : FS
  evs : List FsEvent
  err : Option JsError
deriving DecidableEq, Repr

/-- Result of one getFileContentFromS3 call: updated filesystem, events, the
returned value (the local path, or none for the null of the source), and a
thrown error, if any. -/
structure FetchRes where
  fs : FS
  evs : List FsEvent
  ret : Option FPath
  err : Option JsError
deriving DecidableEq, Repr

/-- getFileContentFromS3 from src/main.js: GetObject, then pipe the body
into a write stream at the local path.  A failing GetObject is caught: the
function logs and returns null (ret none) without throwing.  A write stream
that cannot open its target (missing parent directory, or the target is a
directory) raises an error that nothing handles, modelled as err ioError. -/
def getFileContentFromS3 (s3 : S3Store) (key : String) (localFPath : FPath) (fs : FS) : FetchRes :=
  match s3get s3 key with
  | none => ⟨fs, [.fetch key], none, none⟩
  | some body =>
    if dirIn fs localFPath.dropLast && !(dirIn fs localFPath) then
      ⟨writeFile fs localFPath body, [.fetch key, .write localFPath], some localFPath, none⟩
    else ⟨fs, [.fetch key], none, some .ioError⟩

/-- The existsSync guard plus recursive mkdir that clone and pull both
apply to folder destinations. -/
def dirEnsure (fs : FS) (dest : FPath) : Except JsError FS × List FsEvent :=
  if existsSync fs dest then (.ok fs, [])
  else (mkdirRec fs dest, [.mkdir dest])

mutual
/-- Node sizes, used as fuel bounds for the materialization walks. -/
def nodeSize : Node → Nat
  | .file _ _ _ => 1
  | .folder _ _ _ cs => 1 + nodesSize cs
def nodesSize : List Node → Nat
  | [] => 0
  | c :: cs => nodeSize c + nodesSize cs
end

/-- cloneCloudRepo from src/main.js, over a worklist of sibling nodes.
For a file node: skip when the destination exists; otherwise fetch and
write, and only then mkdir the parent directory (that order is the order of
the source).  A null return from the fetch flows into path.dirname, which
throws a TypeError.  For a folder node: create the directory when absent,
then walk the children with the destination as new base, then the remaining
siblings.  A thrown error aborts the rest of the walk. -/
def cloneGo (s3 : S3Store) : Nat → List Node → FPath → FS → RunRes
  | _, [], _, fs => ⟨fs, [], none⟩
  | 0, _ :: _, _, fs => ⟨fs, [], some .outOfFuel⟩
  | fuel + 1, node :: rest, base, fs =>
    match node with
    | .file nm keyFPath _ =>
      let dest := pjoin base nm
      if existsSync fs dest then cloneGo s3 fuel rest base fs
      else
        let fr := getFileContentFromS3 s3 keyFPath dest fs
        match fr.err with
        | some e => ⟨fr.fs, fr.evs, some e⟩
        | none =>
          match fr.ret with
          | none => ⟨fr.fs, fr.evs, some .typeError⟩
          | some lp =>
            match mkdirRec fr.fs lp.dropLast with
            | .error e => ⟨fr.fs, fr.evs ++ [.mkdir lp.dropLast], some e⟩
            | .ok fs2 =>
              let r := cloneGo s3 fuel rest base fs2
              ⟨r.fs, fr.evs ++ [.mkdir lp.dropLast] ++ r.evs, r.err⟩
    | .folder nm _ _ cs =>
      let dest := pjoin base nm
      match dirEnsure fs dest with
      | (.error e, evs0) => ⟨fs, evs0, some e⟩
      | (.ok fs1, evs0) =>
        let r1 := cloneGo s3 fuel cs dest fs1
        match r1.err with
        | some e => ⟨r1.fs, evs0 ++ r1.evs, some e⟩
        | none =>
          let r2 := cloneGo s3 fuel rest base r1.fs
          ⟨r2.fs, evs0 ++ r1.evs ++ r2.evs, r2.err⟩

def cloneCloudRepo (s3 : S3Store) (h : Node) (base : FPath) (fs : FS) : RunRes :=
  cloneGo s3 (nodeSize h) [h] base fs

/-- pullCloudRepo from src/main.js, over a worklist of sibling nodes.  For a
file node the fetch is gated by isFileModified; when modified, the parent
directory is created first, then the object is fetched and written.  The
return value of getFileContentFromS3 is ignored, so a caught fetch failure
is silently skipped.  A thrown error (local hashing, mkdir, write stream)
aborts the rest of the walk. -/
def pullGo (s3 : S3Store) : Nat → List Node → FPath → FS → RunRes
  | _, [], _, fs => ⟨fs, [], none⟩
  | 0, _ :: _, _, fs => ⟨fs, [], some .outOfFuel⟩
  | fuel + 1, node :: rest, base, fs =>
    match node with
    | .file nm keyFPath _ =>
      let dest := pjoin base nm
      match isFileModified s3 fs keyFPath dest with
      | none => ⟨fs, [], some .ioError⟩
      | some false => pullGo s3 fuel rest base fs
      | some true =>
        match mkdirRec fs dest.dropLast with
        | .error e => ⟨fs, [.mkdir dest.dropLast], some e⟩
        | .ok fs1 =>
          let fr := getFileContentFromS3 s3 keyFPath dest fs1
          match fr.err with
          | some e => ⟨fr.fs, .mkdir dest.dropLast :: fr.evs, some e⟩
          | none =>
            let r := pullGo s3 fuel rest base fr.fs
            ⟨r.fs, .mkdir dest.dropLast :: (fr.evs ++ r.evs), r.err⟩
    | .folder nm _ _ cs =>
      let dest := pjoin base nm
      match dirEnsure fs dest with
      | (.error e, evs0) => ⟨fs, evs0, some e⟩
      | (.ok fs1, evs0) =>
        let r1 := pullGo s3 fuel cs dest fs1
        match r1.err with
        | some e => ⟨r1.fs, evs0 ++ r1.evs, some e⟩
        | none =>
          let r2 := pullGo s3 fuel rest base r1.fs
          ⟨r2.fs, evs0 ++ r1.evs ++ r2.evs, r2.err⟩

def pullCloudRepo (s3 : S3Store) (h : Node) (base : FPath) (fs : FS) : RunRes :=
  pullGo s3 (nodeSize h) [h] base fs

mutual
/-- Every file node of the tree already has its destination present,
following the destination computation of the clone walk (the hypothesis of
the idempotence claim). -/
def allDestsExist (fs : FS) : Node → FPath → Bool
  | .file n _ _, base => existsSync fs (pjoin base n)
  | .folder n _ _ cs, base => allDestsExistL fs cs (pjoin base n)
def allDestsExistL (fs : FS) : List Node → FPath → Bool
  | [], _ => true
  | c :: cs, base => allDestsExist fs c base && allDestsExistL fs cs base
end

/-- Whether the worklist starts with any file node at its top level (such a
node writes directly under the current base directory). -/
def hasTopFile : List Node → Bool
  | [] => false
  | .file _ _ _ :: _ => true
  | .folder _ _ _ _ :: rest => hasTopFile rest

/-! ## Key sets: well-formedness and completeness (for the clone
completeness claim) -/

/-- a is an initial run of b (on segment lists). -/
def isLeadOf (a b : List String) : Bool := decide (b.take a.length = a)

/-- a is a proper initial run of b. -/
def properLeadOf (a b : List String) : Bool := isLeadOf a b && decide (a ≠ b)

/-- No list in the collection is a proper initial run of another one at a
different position. -/
def pairNoProperLead : List (List String) → Bool
  | [] => true
  | a :: rest =>
    rest.all (fun b => !(properLeadOf a b) && !(properLeadOf b a)) && pairNoProperLead rest

/-- No list in the collection is an initial run of (in particular equal to)
another one at a different position. -/
def pairNoLead : List (List String) → Bool
  | [] => true
  | a :: rest =>
    rest.all (fun b => !(isLeadOf a b) && !(isLeadOf b a)) && pairNoLead rest

/-- Keys whose segments are all nonempty and free of the dot conventions
(those are the keys on which the normalized-path model is exact). -/
def wellFormedKeys (keys : List String) : Bool :=
  keys.all (fun K =>
    (splitSegs K).all (fun s => !(s == "") && !(s == ".") && !(s == "..")))

/-- The local destination the clone derives for key K: the base directory,
then the friendly name, then the key segments. -/
def derivedFPath (base : FPath) (friendly : String) (K : String) : FPath :=
  base ++ friendly :: splitSegs K

/-- Completeness of a filesystem for a listing: every key has its file at
the derived path and a directory at every proper separator-prefix. -/
def cloneComplete (keys : List String) (base : FPath) (friendly : String) (fs : FS) : Bool :=
  keys.all (fun K =>
    fileIn fs (derivedFPath base friendly K)
    && (List.range ((splitSegs K).length - 1)).all (fun i =>
        dirIn fs (base ++ friendly :: (splitSegs K).take (i + 1))))

/-- The prefix closure of a set of paths (with the empty path), the
candidate set of directories the clone may create. -/
def prefixClosure (l : List FPath) : List FPath := [] :: l.flatMap prefixesOf

/-! ## Concrete fixtures used by witnesses and counterexamples -/

def c1s3 : S3Store := [("k", [97])]

def c1fs : FS := ⟨[(["d", "f"], [97])], [["d"]]⟩

def c3fs : FS := ⟨[(["r", "a.txt"], [1]), (["r", "b", "c.txt"], [2])], [["r"], ["r", "b"]]⟩

def c3shape : Shape := .sfolder "r" [.sfile "a.txt", .sfolder "b" [.sfile "c.txt"]]

def c7fs : FS := ⟨[], [["r"]]⟩

def c10tree : Node :=
  .folder "r" "" false [.folder "docs" "docs" false [.file "" "docs/" false]]

def c7btree : Node := .folder "repo" "" false [.file "a.txt" "a.txt" false]

def c7ltree : Node := .folder "r" "r" false []

def emptyFS : FS := ⟨[], []⟩

def c2s3 : S3Store := [("x/y", [1]), ("x", [2])]

def c2keys : List String := ["x/y", "x"]

def c2tree : Node :=
  .folder "repo" "" false
    [.folder "x" "x" false [.file "y" "x/y" false], .file "x" "x" false]

def c2ws3 : S3Store := [("a.txt", [1]), ("b/c.txt", [2])]

def c2wtree : Node :=
  .folder "repo" "" false
    [.file "a.txt" "a.txt" false, .folder "b" "b" false [.file "c.txt" "b/c.txt" false]]

def c4tree : Node := .folder "repo" "" false [.file "a" "a" false]

def c4fs : FS := ⟨[(["base", "repo", "a"], [])], []⟩

def c5node : Node := .file "f" "k" false

def c8fs : FS := ⟨[(["n"], [])], []⟩

/-! ## Theorems -/

theorem existsSync_of_readFile (fs : FS) (p : FPath) (L : Bytes)
    (h : readFile fs p = some L) : existsSync fs p = true := by
  unfold readFile at h
  rcases Option.map_eq_some'.mp h with ⟨e, hfind, -⟩
  have hmem := List.mem_of_find?_eq_some hfind
  have hpred := List.find?_some hfind
  unfold existsSync fileIn
  have : fs.files.any (fun e => e.1 == p) = true := List.any_eq_true.mpr ⟨e, hmem, hpred⟩
  simp [this]

/-- Claim C1: when the remote object has content R and a local file with
content L exists at the path, isFileModified returns false exactly when the
SHA-256 hex digests of R and L agree; and whenever no file exists at the
local path it returns true immediately. -/
theorem isFileModified_sha256_spec (s3 : S3Store) (fs fsM : FS) (key : String)
    (p pM : FPath) (R L : Bytes)
    (hR : s3get s3 key = some R) (hL : readFile fs p = some L)
    (hM : existsSync fsM pM = false) :
    (isFileModified s3 fs key p = some false ↔ sha256hex R = sha256hex L)
    ∧ isFileModified s3 fsM key pM = some true := by
  constructor
  · have hex := existsSync_of_readFile fs p L hL
    simp [isFileModified, hex, calculateLocalFileHash, calculateCloudFileHash, hL, hR]
  · simp [isFileModified, hM]

theorem isFileModified_sha256_spec_witness :
    (isFileModified c1s3 c1fs "k" ["d", "f"] = some false
      ↔ sha256hex [97] = sha256hex [97])
    ∧ isFileModified c1s3 ⟨[], []⟩ "k" ["x"] = some true :=
  isFileModified_sha256_spec c1s3 c1fs ⟨[], []⟩ "k" ["d", "f"] ["x"] [97] [97] rfl rfl rfl

/-- Claim C9: when the local file exists but the remote fetch fails,
calculateCloudFileHash yields null, which is strictly unequal to the local
hex digest, so isFileModified reports true instead of an error. -/
theorem cloudHashNull_treats_as_modified (s3 : S3Store) (fs : FS) (key : String)
    (p : FPath) (L : Bytes)
    (hfail : s3get s3 key = none) (hL : readFile fs p = some L) :
    isFileModified s3 fs key p = some true := by
  have hex := existsSync_of_readFile fs p L hL
  simp [isFileModified, hex, calculateLocalFileHash, calculateCloudFileHash, hfail, hL]

theorem cloudHashNull_treats_as_modified_witness :
    isFileModified [] c1fs "k" ["d", "f"] = some true :=
  cloudHashNull_treats_as_modified [] c1fs "k" ["d", "f"] [97] rfl rfl

/-! ## Basic lemmas about positions -/

theorem filePosL_append (a b : List Node) :
    filePosL (a ++ b) = filePosL a ++ filePosL b := by
  induction a with
  | nil => simp [filePosL]
  | cons c cs ih => simp [filePosL, ih]

theorem folderPosL_append (a b : List Node) :
    folderPosL (a ++ b) = folderPosL a ++ folderPosL b := by
  induction a with
  | nil => simp [folderPosL]
  | cons c cs ih => simp [folderPosL, ih]

theorem mem_filePosL_of_mem {c : Node} {cs : List Node} {x : List String × String}
    (hc : c ∈ cs) (hx : x ∈ filePos c) : x ∈ filePosL cs := by
  induction cs with
  | nil => cases hc
  | cons d ds ih =>
    rcases List.mem_cons.mp hc with h | h
    · subst h; simp [filePosL, List.mem_append]; exact Or.inl hx
    · simp [filePosL, List.mem_append]; exact Or.inr (ih h)

theorem mem_folderPosL_of_mem {c : Node} {cs : List Node} {r : List String}
    (hc : c ∈ cs) (hr : r ∈ folderPos c) : r ∈ folderPosL cs := by
  induction cs with
  | nil => cases hc
  | cons d ds ih =>
    rcases List.mem_cons.mp hc with h | h
    · subst h; simp [folderPosL, List.mem_append]; exact Or.inl hr
    · simp [folderPosL, List.mem_append]; exact Or.inr (ih h)

/-! ## Lemmas about splitAtName and insertGo -/

theorem splitAtName_some {s : String} :
    ∀ {cs pre suf : List Node} {c : Node},
      splitAtName s cs = some (pre, c, suf) → cs = pre ++ c :: suf ∧ c.name = s := by
  intro cs
  induction cs with
  | nil => intro pre suf c h; simp [splitAtName] at h
  | cons d ds ih =>
    intro pre suf c h
    simp only [splitAtName] at h
    split at h
    · rename_i hname
      rcases h with ⟨rfl, rfl, rfl⟩ |  _
      · exact ⟨rfl, by simpa using hname⟩
    · split at h
      · simp at h
      · rename_i a x b hrec
        simp only [Option.some.injEq, Prod.mk.injEq] at h
        rcases h with ⟨h1, h2, h3⟩
        subst h1; subst h2; subst h3
        obtain ⟨hcs, hn⟩ := ih hrec
        exact ⟨by rw [hcs]; simp, hn⟩

theorem insertGo_file (key : String) (parts : List String) (i : Nat)
    (rem : List String) (a b : String) (m : Bool) :
    insertGo key parts i rem (.file a b m) = .error .typeError := by
  cases rem <;> rfl

theorem insertGo_ok_shape (key : String) (parts : List String) (rem : List String) (i : Nat)
    (n p : String) (m : Bool) (cs : List Node) (cur2 : Node)
    (h : insertGo key parts i rem (.folder n p m cs) = .ok cur2) :
    ∃ cs2, cur2 = .folder n p m cs2 := by
  cases rem with
  | nil =>
    simp only [insertGo, Except.ok.injEq] at h
    exact ⟨_, h.symm⟩
  | cons s rest =>
    simp only [insertGo] at h
    split at h
    · split at h
      · simp at h
      · simp only [Except.ok.injEq] at h; exact ⟨_, h.symm⟩
    · split at h
      · simp at h
      · simp only [Except.ok.injEq] at h; exact ⟨_, h.symm⟩

theorem insertGo_ok_name (key : String) (parts : List String) (rem : List String) (i : Nat)
    (cur cur2 : Node) (h : insertGo key parts i rem cur = .ok cur2) :
    cur2.name = cur.name ∧ cur2.path = cur.path := by
  cases cur with
  | file a b m => rw [insertGo_file] at h; cases h
  | folder n p m cs =>
    obtain ⟨cs2, rfl⟩ := insertGo_ok_shape key parts rem i n p m cs cur2 h
    exact ⟨rfl, rfl⟩

theorem insertGo_creates (key : String) (parts : List String) :
    ∀ (rem : List String) (i : Nat) (cur cur2 : Node),
      insertGo key parts i rem cur = .ok cur2 →
      (cur.name :: rem ++ [parts.getLastD ""], key) ∈ filePos cur2
      ∧ ∀ j, j ≤ rem.length → cur.name :: rem.take j ∈ folderPos cur2 := by
  intro rem
  induction rem with
  | nil =>
    intro i cur cur2 h
    cases cur with
    | file a b m => rw [insertGo_file] at h; cases h
    | folder n p m cs =>
      simp only [insertGo, Except.ok.injEq] at h
      subst h
      refine ⟨?_, ?_⟩
      · simp only [Node.name, filePos, filePosL_append, filePosL, filePos, List.append_nil]
        refine List.mem_map.mpr ⟨([parts.getLastD ""], key), ?_, rfl⟩
        simp
      · intro j hj
        have : j = 0 := Nat.le_zero.mp hj
        subst this
        simp [folderPos, Node.name]
  | cons s rest ih =>
    intro i cur cur2 h
    cases cur with
    | file a b m => rw [insertGo_file] at h; cases h
    | folder n p m cs =>
      simp only [insertGo] at h
      split at h
      · rename_i pre c suf hsp
        obtain ⟨hcs, hcname⟩ := splitAtName_some hsp
        split at h
        · cases h
        · rename_i c2 hins
          simp only [Except.ok.injEq] at h
          subst h
          obtain ⟨hf, hfold⟩ := ih (i + 1) c c2 hins
          have hc2 : c2.name = c.name := (insertGo_ok_name key parts rest (i + 1) c c2 hins).1
          have hcmem : c2 ∈ pre ++ c2 :: suf := by simp
          constructor
          · refine List.mem_map.mpr ⟨((s :: rest) ++ [parts.getLastD ""], key), ?_, rfl⟩
            have : (c.name :: rest ++ [parts.getLastD ""], key) ∈ filePos c2 := hf
            rw [hcname] at this
            exact mem_filePosL_of_mem hcmem this
          · intro j hj
            cases j with
            | zero => simp [folderPos, Node.name]
            | succ j2 =>
              have hj2 : j2 ≤ rest.length := Nat.succ_le_succ_iff.mp (by simpa using hj)
              have := hfold j2 hj2
              rw [hcname] at this
              simp only [folderPos, Node.name, List.take, List.mem_cons]
              right
              exact List.mem_map.mpr ⟨s :: rest.take j2, mem_folderPosL_of_mem hcmem this, rfl⟩
      · rename_i hsp
        split at h
        · cases h
        · rename_i c2 hins
          simp only [Except.ok.injEq] at h
          subst h
          obtain ⟨hf, hfold⟩ := ih (i + 1) _ c2 hins
          have hc2 : c2.name = s := by
            simpa [Node.name] using (insertGo_ok_name key parts rest (i + 1) _ c2 hins).1
          have hcmem : c2 ∈ cs ++ [c2] := by simp
          constructor
          · refine List.mem_map.mpr ⟨((s :: rest) ++ [parts.getLastD ""], key), ?_, rfl⟩
            have : (Node.name (.folder s (joinSegs (parts.take (i + 1))) false [])
                :: rest ++ [parts.getLastD ""], key) ∈ filePos c2 := hf
            simp only [Node.name] at this
            exact mem_filePosL_of_mem hcmem this
          · intro j hj
            cases j with
            | zero => simp [folderPos, Node.name]
            | succ j2 =>
              have hj2 : j2 ≤ rest.length := Nat.succ_le_succ_iff.mp (by simpa using hj)
              have := hfold j2 hj2
              simp only [Node.name] at this
              simp only [folderPos, Node.name, List.take, List.mem_cons]
              right
              exact List.mem_map.mpr ⟨s :: rest.take j2, mem_folderPosL_of_mem hcmem this, rfl⟩

theorem insertGo_grows (key : String) (parts : List String) :
    ∀ (rem : List String) (i : Nat) (cur cur2 : Node),
      insertGo key parts i rem cur = .ok cur2 →
      (∀ x, x ∈ filePos cur → x ∈ filePos cur2)
      ∧ (∀ r, r ∈ folderPos cur → r ∈ folderPos cur2) := by
  intro rem
  induction rem with
  | nil =>
    intro i cur cur2 h
    cases cur with
    | file a b m => rw [insertGo_file] at h; cases h
    | folder n p m cs =>
      simp only [insertGo, Except.ok.injEq] at h
      subst h
      constructor
      · intro x hx
        simp only [filePos, filePosL_append] at *
        rcases List.mem_map.mp hx with ⟨y, hy, rfl⟩
        exact List.mem_map.mpr ⟨y, by simp [List.mem_append]; exact Or.inl hy, rfl⟩
      · intro r hr
        simp only [folderPos, folderPosL_append, filePosL, folderPosL, List.append_nil] at *
        rcases List.mem_cons.mp hr with h1 | h1
        · simp [h1]
        · rcases List.mem_map.mp h1 with ⟨y, hy, rfl⟩
          simp only [List.mem_cons]
          right
          exact List.mem_map.mpr ⟨y, by simp [List.mem_append, hy], rfl⟩
  | cons s rest ih =>
    intro i cur cur2 h
    cases cur with
    | file a b m => rw [insertGo_file] at h; cases h
    | folder n p m cs =>
      simp only [insertGo] at h
      split at h
      · rename_i pre c suf hsp
        obtain ⟨hcs, hcname⟩ := splitAtName_some hsp
        split at h
        · cases h
        · rename_i c2 hins
          simp only [Except.ok.injEq] at h
          subst h
          obtain ⟨hfg, hdg⟩ := ih (i + 1) c c2 hins
          subst hcs
          constructor
          · intro x hx
            simp only [filePos] at *
            rcases List.mem_map.mp hx with ⟨y, hy, rfl⟩
            refine List.mem_map.mpr ⟨y, ?_, rfl⟩
            rw [filePosL_append, filePosL] at hy ⊢
            simp only [List.mem_append, List.mem_cons] at hy ⊢
            rcases hy with h1 | h1 | h1
            · exact Or.inl h1
            · exact Or.inr (Or.inl (hfg y h1))
            · exact Or.inr (Or.inr h1)
          · intro r hr
            simp only [folderPos] at *
            rcases List.mem_cons.mp hr with h1 | h1
            · simp [h1]
            · rcases List.mem_map.mp h1 with ⟨y, hy, rfl⟩
              simp only [List.mem_cons]
              right
              refine List.mem_map.mpr ⟨y, ?_, rfl⟩
              rw [folderPosL_append, folderPosL] at hy ⊢
              simp only [List.mem_append, List.mem_cons] at hy ⊢
              rcases hy with h1 | h1 | h1
              · exact Or.inl h1
              · exact Or.inr (Or.inl (hdg y h1))
              · exact Or.inr (Or.inr h1)
      · rename_i hsp
        split at h
        · cases h
        · rename_i c2 hins
          simp only [Except.ok.injEq] at h
          subst h
          constructor
          · intro x hx
            simp only [filePos] at *
            rcases List.mem_map.mp hx with ⟨y, hy, rfl⟩
            refine List.mem_map.mpr ⟨y, ?_, rfl⟩
            rw [filePosL_append]
            exact List.mem_append.mpr (Or.inl hy)
          · intro r hr
            simp only [folderPos] at *
            rcases List.mem_cons.mp hr with h1 | h1
            · simp [h1]
            · rcases List.mem_map.mp h1 with ⟨y, hy, rfl⟩
              simp only [List.mem_cons]
              right
              refine List.mem_map.mpr ⟨y, ?_, rfl⟩
              rw [folderPosL_append]
              exact List.mem_append.mpr (Or.inl hy)

/-! ## Lemmas about buildGo -/

theorem buildGo_ok_name :
    ∀ (keys : List String) (h h2 : Node), buildGo keys h = .ok h2 →
      h2.name = h.name ∧ h2.path = h.path := by
  intro keys
  induction keys with
  | nil =>
    intro h h2 hb
    simp only [buildGo, Except.ok.injEq] at hb
    subst hb; exact ⟨rfl, rfl⟩
  | cons k ks ih =>
    intro h h2 hb
    simp only [buildGo] at hb
    split at hb
    · cases hb
    · rename_i h1 hins
      obtain ⟨hn, hp⟩ := insertGo_ok_name _ _ _ _ _ _ hins
      obtain ⟨hn2, hp2⟩ := ih _ _ hb
      exact ⟨hn2.trans hn, hp2.trans hp⟩

theorem buildGo_grows :
    ∀ (keys : List String) (h h2 : Node), buildGo keys h = .ok h2 →
      (∀ x, x ∈ filePos h → x ∈ filePos h2)
      ∧ (∀ r, r ∈ folderPos h → r ∈ folderPos h2) := by
  intro keys
  induction keys with
  | nil =>
    intro h h2 hb
    simp only [buildGo, Except.ok.injEq] at hb
    subst hb; exact ⟨fun x hx => hx, fun r hr => hr⟩
  | cons k ks ih =>
    intro h h2 hb
    simp only [buildGo] at hb
    split at hb
    · cases hb
    · rename_i h1 hins
      obtain ⟨hf1, hd1⟩ := insertGo_grows _ _ _ _ _ _ hins
      obtain ⟨hf2, hd2⟩ := ih _ _ hb
      exact ⟨fun x hx => hf2 x (hf1 x hx), fun r hr => hd2 r (hd1 r hr)⟩

theorem buildGo_creates :
    ∀ (keys : List String) (h h2 : Node), buildGo keys h = .ok h2 →
      ∀ K ∈ keys,
        (h.name :: (splitSegs K).dropLast ++ [(splitSegs K).getLastD ""], K) ∈ filePos h2
        ∧ ∀ j, j ≤ (splitSegs K).dropLast.length →
            h.name :: (splitSegs K).dropLast.take j ∈ folderPos h2 := by
  intro keys
  induction keys with
  | nil => intro h h2 hb K hK; cases hK
  | cons k ks ih =>
    intro h h2 hb K hK
    simp only [buildGo] at hb
    split at hb
    · cases hb
    · rename_i h1 hins
      rcases List.mem_cons.mp hK with rfl | hK2
      · obtain ⟨hf, hfold⟩ := insertGo_creates K (splitSegs K) (splitSegs K).dropLast 0 h h1 hins
        obtain ⟨hfg, hdg⟩ := buildGo_grows ks h1 h2 hb
        exact ⟨hfg _ hf, fun j hj => hdg _ (hfold j hj)⟩
      · have hres := ih h1 h2 hb K hK2
        have hname : h1.name = h.name := (insertGo_ok_name _ _ _ _ _ _ hins).1
        rw [hname] at hres
        exact hres

/-- Claim C10: for a folder-placeholder key ending in the separator, the
remote builder creates, under the folder chain named by the nonfinal
segments, a child File node whose name is the empty string and whose path is
the placeholder key itself, next to the synthesized folder node. -/
theorem placeholder_key_empty_file (friendly key : String) (keys : List String)
    (ps : List String) (h : Node)
    (hsplit : splitSegs key = ps ++ [""])
    (hmem : key ∈ keys)
    (hb : getBucketHierarchy friendly keys = .ok h) :
    (friendly :: ps ++ [""], key) ∈ filePos h ∧ friendly :: ps ∈ folderPos h := by
  unfold getBucketHierarchy at hb
  have hc := buildGo_creates keys _ h hb key hmem
  rw [hsplit] at hc
  simp only [List.dropLast_concat, List.getLastD_concat, Node.name] at hc
  refine ⟨hc.1, ?_⟩
  have := hc.2 ps.length le_rfl
  rwa [List.take_length] at this

theorem placeholder_key_empty_file_witness :
    (["r", "docs", ""], "docs/") ∈ filePos c10tree
    ∧ ["r", "docs"] ∈ folderPos c10tree :=
  placeholder_key_empty_file "r" "docs/" ["docs/"] ["docs"] c10tree rfl
    (by simp) rfl

/-- Claim C6 counterexample: the listing with keys x/y and x (a real S3
listing: both keys can coexist) builds a root whose children are a folder
named x and then a file named x, so a folder has two children with the same
name. -/
theorem child_names_unique_cex :
    (getBucketHierarchy "r" ["x/y", "x"]).map childNamesUnique = .ok false := rfl

/-- Claim C3: building the hierarchy from a local directory holding a.txt
and b/c.txt and building it from the remote key set with the same two names
yield the same tree shape (names, kinds, nesting), differing only in the
display name of the root. -/
theorem hierarchy_roundtrip_shape :
    (getFolderHierarchy c3fs ["r"]).map shapeOf = .ok c3shape
    ∧ (getBucketHierarchy "repo" ["a.txt", "b/c.txt"]).map shapeOf
        = .ok (shapeRename c3shape "repo") := ⟨rfl, rfl⟩

/-- Claim C7 counterexample: the local builder stores the full input
directory path in the root node, not the empty string. -/
theorem root_path_empty_cex :
    (getFolderHierarchy c7fs ["r"]).map Node.path = .ok "r" ∧ "r" ≠ "" :=
  ⟨rfl, by decide⟩

/-- Claim C7 amended: each build call returns exactly one root node; the
remote builder gives it the empty path, while the local builder gives it the
full input directory path. -/
theorem build_root_path (friendly : String) (keys : List String) (fs : FS)
    (p : FPath) (h hl : Node)
    (hb : getBucketHierarchy friendly keys = .ok h)
    (hlb : getFolderHierarchy fs p = .ok hl) :
    h.path = "" ∧ hl.path = joinSegs p := by
  constructor
  · exact (buildGo_ok_name keys _ h hb).2
  · unfold getFolderHierarchy at hlb
    have heq : fs.dirs.length + 2 = (fs.dirs.length + 1) + 1 := rfl
    rw [heq] at hlb
    simp only [getFolderGo] at hlb
    split at hlb
    · split at hlb
      · cases hlb
      · simp only [Except.ok.injEq] at hlb
        subst hlb; rfl
    · split at hlb
      · simp only [Except.ok.injEq] at hlb
        subst hlb; rfl
      · cases hlb

theorem build_root_path_witness :
    Node.path c7btree = "" ∧ Node.path c7ltree = joinSegs ["r"] :=
  build_root_path "repo" ["a.txt"] c7fs ["r"] c7btree c7ltree rfl rfl

/-! ## Filesystem operation lemmas -/

theorem mkdirRec_ok_files {fs fs2 : FS} {p : FPath} (h : mkdirRec fs p = .ok fs2) :
    fs2.files = fs.files ∧ ∀ q, dirIn fs q = true → dirIn fs2 q = true := by
  unfold mkdirRec at h
  split at h
  · cases h
  · simp only [Except.ok.injEq] at h
    subst h
    refine ⟨rfl, fun q hq => ?_⟩
    simp only [dirIn, List.any_append, Bool.or_eq_true]
    exact Or.inl hq

theorem existsSync_mkdirRec {fs fs2 : FS} {p : FPath} (h : mkdirRec fs p = .ok fs2)
    (q : FPath) (hq : existsSync fs q = true) : existsSync fs2 q = true := by
  obtain ⟨hf, hd⟩ := mkdirRec_ok_files h
  simp only [existsSync, Bool.or_eq_true] at hq ⊢
  rcases hq with h1 | h1
  · exact Or.inl (by simpa only [fileIn, hf] using h1)
  · exact Or.inr (hd q h1)

theorem writeFile_fileIn_self (fs : FS) (p : FPath) (c : Bytes) :
    fileIn (writeFile fs p c) p = true := by
  simp [fileIn, writeFile]

theorem writeFile_exists_mono (fs : FS) (p : FPath) (c : Bytes) (q : FPath)
    (hq : existsSync fs q = true) : existsSync (writeFile fs p c) q = true := by
  simp only [existsSync, Bool.or_eq_true] at hq ⊢
  rcases hq with h1 | h1
  · left
    rcases List.any_eq_true.mp h1 with ⟨e, he, hpred⟩
    have heq : e.1 = q := by simpa using hpred
    by_cases hqp : q = p
    · subst hqp
      simp [fileIn, writeFile]
    · refine List.any_eq_true.mpr ⟨e, ?_, hpred⟩
      simp only [writeFile, List.mem_cons, List.mem_filter]
      right
      refine ⟨he, ?_⟩
      simp [heq, hqp]
  · right
    simpa only [dirIn, writeFile] using h1

/-! ## Step equations for the folder branches of the two walks -/

theorem pullGo_folder_ok (s3 : S3Store) (fuel : Nat) (nm p : String) (m : Bool)
    (cs rest : List Node) (base : FPath) (fs fs1 : FS) (evs0 : List FsEvent)
    (hde : dirEnsure fs (pjoin base nm) = (.ok fs1, evs0)) :
    pullGo s3 (fuel + 1) (.folder nm p m cs :: rest) base fs =
      match (pullGo s3 fuel cs (pjoin base nm) fs1).err with
      | some e => ⟨(pullGo s3 fuel cs (pjoin base nm) fs1).fs,
          evs0 ++ (pullGo s3 fuel cs (pjoin base nm) fs1).evs, some e⟩
      | none => ⟨(pullGo s3 fuel rest base (pullGo s3 fuel cs (pjoin base nm) fs1).fs).fs,
          evs0 ++ (pullGo s3 fuel cs (pjoin base nm) fs1).evs
            ++ (pullGo s3 fuel rest base (pullGo s3 fuel cs (pjoin base nm) fs1).fs).evs,
          (pullGo s3 fuel rest base (pullGo s3 fuel cs (pjoin base nm) fs1).fs).err⟩ := by
  simp only [pullGo, hde]

theorem pullGo_folder_err (s3 : S3Store) (fuel : Nat) (nm p : String) (m : Bool)
    (cs rest : List Node) (base : FPath) (fs : FS) (e : JsError) (evs0 : List FsEvent)
    (hde : dirEnsure fs (pjoin base nm) = (.error e, evs0)) :
    pullGo s3 (fuel + 1) (.folder nm p m cs :: rest) base fs = ⟨fs, evs0, some e⟩ := by
  simp only [pullGo, hde]

theorem cloneGo_folder_ok (s3 : S3Store) (fuel : Nat) (nm p : String) (m : Bool)
    (cs rest : List Node) (base : FPath) (fs fs1 : FS) (evs0 : List FsEvent)
    (hde : dirEnsure fs (pjoin base nm) = (.ok fs1, evs0)) :
    cloneGo s3 (fuel + 1) (.folder nm p m cs :: rest) base fs =
      match (cloneGo s3 fuel cs (pjoin base nm) fs1).err with
      | some e => ⟨(cloneGo s3 fuel cs (pjoin base nm) fs1).fs,
          evs0 ++ (cloneGo s3 fuel cs (pjoin base nm) fs1).evs, some e⟩
      | none => ⟨(cloneGo s3 fuel rest base (cloneGo s3 fuel cs (pjoin base nm) fs1).fs).fs,
          evs0 ++ (cloneGo s3 fuel cs (pjoin base nm) fs1).evs
            ++ (cloneGo s3 fuel rest base (cloneGo s3 fuel cs (pjoin base nm) fs1).fs).evs,
          (cloneGo s3 fuel rest base (cloneGo s3 fuel cs (pjoin base nm) fs1).fs).err⟩ := by
  simp only [cloneGo, hde]

theorem cloneGo_folder_err (s3 : S3Store) (fuel : Nat) (nm p : String) (m : Bool)
    (cs rest : List Node) (base : FPath) (fs : FS) (e : JsError) (evs0 : List FsEvent)
    (hde : dirEnsure fs (pjoin base nm) = (.error e, evs0)) :
    cloneGo s3 (fuel + 1) (.folder nm p m cs :: rest) base fs = ⟨fs, evs0, some e⟩ := by
  simp only [cloneGo, hde]

/-! ## Pull never deletes (claim C8) -/

theorem pullGo_mono (s3 : S3Store) :
    ∀ (fuel : Nat) (l : List Node) (base : FPath) (fs : FS) (q : FPath),
      existsSync fs q = true → existsSync (pullGo s3 fuel l base fs).fs q = true := by
  intro fuel
  induction fuel with
  | zero =>
    intro l base fs q hq
    cases l with
    | nil => simpa [pullGo] using hq
    | cons node rest => simpa [pullGo] using hq
  | succ fuel ih =>
    intro l base fs q hq
    cases l with
    | nil => simpa [pullGo] using hq
    | cons node rest =>
      cases node with
      | file nm kp m =>
        simp only [pullGo]
        cases hmod : isFileModified s3 fs kp (pjoin base nm) with
        | none => simpa using hq
        | some b =>
          cases b with
          | false => simpa using ih rest base fs q hq
          | true =>
            cases hmk : mkdirRec fs (pjoin base nm).dropLast with
            | error e => simpa using hq
            | ok fs1 =>
              have hq1 := existsSync_mkdirRec hmk q hq
              simp only []
              cases hget : s3get s3 kp with
              | none =>
                have hfr : getFileContentFromS3 s3 kp (pjoin base nm) fs1 =
                    ⟨fs1, [.fetch kp], none, none⟩ := by
                  simp [getFileContentFromS3, hget]
                rw [hfr]
                exact ih rest base fs1 q hq1
              | some body =>
                by_cases hgd : (dirIn fs1 (pjoin base nm).dropLast && !(dirIn fs1 (pjoin base nm))) = true
                · have hfr : getFileContentFromS3 s3 kp (pjoin base nm) fs1 =
                      ⟨writeFile fs1 (pjoin base nm) body,
                        [.fetch kp, .write (pjoin base nm)], some (pjoin base nm), none⟩ := by
                    simp only [getFileContentFromS3, hget, hgd, if_true]
                  rw [hfr]
                  exact ih rest base _ q (writeFile_exists_mono fs1 _ body q hq1)
                · have hfr : getFileContentFromS3 s3 kp (pjoin base nm) fs1 =
                      ⟨fs1, [.fetch kp], none, some .ioError⟩ := by
                    simp [getFileContentFromS3, hget, hgd]
                  rw [hfr]
                  exact hq1
      | folder nm p m cs =>
        by_cases hex : existsSync fs (pjoin base nm) = true
        · have hde : dirEnsure fs (pjoin base nm) = (.ok fs, []) := by
            simp [dirEnsure, hex]
          rw [pullGo_folder_ok s3 fuel nm p m cs rest base fs fs [] hde]
          have hq1 := ih cs (pjoin base nm) fs q hq
          cases herr : (pullGo s3 fuel cs (pjoin base nm) fs).err with
          | some e => simp only [herr]; exact hq1
          | none => simp only [herr]; exact ih rest base _ q hq1
        · have hexf : existsSync fs (pjoin base nm) = false := by
            simpa using hex
          cases hmk : mkdirRec fs (pjoin base nm) with
          | error e =>
            have hde : dirEnsure fs (pjoin base nm) =
                (.error e, [.mkdir (pjoin base nm)]) := by
              simp [dirEnsure, hexf, hmk]
            rw [pullGo_folder_err s3 fuel nm p m cs rest base fs e [.mkdir (pjoin base nm)] hde]
            exact hq
          | ok fs1 =>
            have hde : dirEnsure fs (pjoin base nm) =
                (.ok fs1, [.mkdir (pjoin base nm)]) := by
              simp [dirEnsure, hexf, hmk]
            rw [pullGo_folder_ok s3 fuel nm p m cs rest base fs fs1 [.mkdir (pjoin base nm)] hde]
            have hq1 := ih cs (pjoin base nm) fs1 q (existsSync_mkdirRec hmk q hq)
            cases herr : (pullGo s3 fuel cs (pjoin base nm) fs1).err with
            | some e => simp only [herr]; exact hq1
            | none => simp only [herr]; exact ih rest base _ q hq1

/-- Claim C8: a pull run never deletes anything: every local path (file or
folder) present before the pull is still present afterwards, whatever the
hierarchy and the local state are. -/
theorem pull_no_deletion (s3 : S3Store) (h : Node) (base : FPath) (fs : FS)
    (q : FPath) (hq : existsSync fs q = true) :
    existsSync (pullCloudRepo s3 h base fs).fs q = true :=
  pullGo_mono s3 (nodeSize h) [h] base fs q hq

theorem pull_no_deletion_witness :
    existsSync (pullCloudRepo [] c5node ["d"] c8fs).fs ["n"] = true :=
  pull_no_deletion [] c5node ["d"] c8fs ["n"] rfl

/-! ## Clone idempotence (claim C4) -/

theorem existsSync_mono_of (fs fs2 : FS) (hf : fs2.files = fs.files)
    (hd : ∀ q, dirIn fs q = true → dirIn fs2 q = true) :
    ∀ q, existsSync fs q = true → existsSync fs2 q = true := by
  intro q hq
  simp only [existsSync, Bool.or_eq_true] at hq ⊢
  rcases hq with h1 | h1
  · exact Or.inl (by simpa only [fileIn, hf] using h1)
  · exact Or.inr (hd q h1)

mutual
theorem allDestsExist_mono (fs fs2 : FS)
    (hmono : ∀ q, existsSync fs q = true → existsSync fs2 q = true) :
    ∀ (node : Node) (base : FPath),
      allDestsExist fs node base = true → allDestsExist fs2 node base = true
  | .file n p m, base, h => by
    simp only [allDestsExist] at h ⊢
    exact hmono _ h
  | .folder n p m cs, base, h => by
    simp only [allDestsExist] at h ⊢
    exact allDestsExistL_mono fs fs2 hmono cs _ h
theorem allDestsExistL_mono (fs fs2 : FS)
    (hmono : ∀ q, existsSync fs q = true → existsSync fs2 q = true) :
    ∀ (l : List Node) (base : FPath),
      allDestsExistL fs l base = true → allDestsExistL fs2 l base = true
  | [], _, _ => rfl
  | c :: cs, base, h => by
    simp only [allDestsExistL, Bool.and_eq_true] at h ⊢
    exact ⟨allDestsExist_mono fs fs2 hmono c base h.1,
      allDestsExistL_mono fs fs2 hmono cs base h.2⟩
end

theorem cloneGo_idem (s3 : S3Store) :
    ∀ (fuel : Nat) (l : List Node) (base : FPath) (fs : FS),
      allDestsExistL fs l base = true →
      (cloneGo s3 fuel l base fs).fs.files = fs.files
      ∧ (∀ q, dirIn fs q = true → dirIn (cloneGo s3 fuel l base fs).fs q = true)
      ∧ (cloneGo s3 fuel l base fs).evs.all FsEvent.isMkdir = true := by
  intro fuel
  induction fuel with
  | zero =>
    intro l base fs hall
    cases l with
    | nil =>
      exact ⟨by simp [cloneGo], fun q hq => by simpa [cloneGo] using hq, by simp [cloneGo]⟩
    | cons node rest =>
      exact ⟨by simp [cloneGo], fun q hq => by simpa [cloneGo] using hq, by simp [cloneGo]⟩
  | succ fuel ih =>
    intro l base fs hall
    cases l with
    | nil =>
      exact ⟨by simp [cloneGo], fun q hq => by simpa [cloneGo] using hq, by simp [cloneGo]⟩
    | cons node rest =>
      simp only [allDestsExistL, Bool.and_eq_true] at hall
      obtain ⟨h1, h2⟩ := hall
      cases node with
      | file nm kp m =>
        simp only [allDestsExist] at h1
        simp only [cloneGo, h1, if_true]
        exact ih rest base fs h2
      | folder nm p m cs =>
        simp only [allDestsExist] at h1
        by_cases hex : existsSync fs (pjoin base nm) = true
        · have hde : dirEnsure fs (pjoin base nm) = (.ok fs, []) := by
            simp [dirEnsure, hex]
          rw [cloneGo_folder_ok s3 fuel nm p m cs rest base fs fs [] hde]
          obtain ⟨f1, d1, e1⟩ := ih cs (pjoin base nm) fs h1
          cases herr : (cloneGo s3 fuel cs (pjoin base nm) fs).err with
          | some e =>
            simp only [herr]
            exact ⟨f1, d1, by simp [List.all_append, e1]⟩
          | none =>
            simp only [herr]
            have hall2 : allDestsExistL (cloneGo s3 fuel cs (pjoin base nm) fs).fs rest base :=
              allDestsExistL_mono fs _ (existsSync_mono_of fs _ f1 d1) rest base h2
            obtain ⟨f2, d2, e2⟩ := ih rest base _ hall2
            exact ⟨f2.trans f1, fun q hq => d2 q (d1 q hq),
              by simp [List.all_append, e1, e2]⟩
        · have hexf : existsSync fs (pjoin base nm) = false := by simpa using hex
          cases hmk : mkdirRec fs (pjoin base nm) with
          | error e =>
            have hde : dirEnsure fs (pjoin base nm) =
                (.error e, [.mkdir (pjoin base nm)]) := by
              simp [dirEnsure, hexf, hmk]
            rw [cloneGo_folder_err s3 fuel nm p m cs rest base fs e
              [.mkdir (pjoin base nm)] hde]
            exact ⟨rfl, fun q hq => hq, by simp [FsEvent.isMkdir]⟩
          | ok fs1 =>
            have hde : dirEnsure fs (pjoin base nm) =
                (.ok fs1, [.mkdir (pjoin base nm)]) := by
              simp [dirEnsure, hexf, hmk]
            rw [cloneGo_folder_ok s3 fuel nm p m cs rest base fs fs1
              [.mkdir (pjoin base nm)] hde]
            obtain ⟨hfm, hdm⟩ := mkdirRec_ok_files hmk
            have hall1 : allDestsExistL fs1 cs (pjoin base nm) :=
              allDestsExistL_mono fs fs1 (existsSync_mono_of fs fs1 hfm hdm) cs _ h1
            obtain ⟨f1, d1, e1⟩ := ih cs (pjoin base nm) fs1 hall1
            cases herr : (cloneGo s3 fuel cs (pjoin base nm) fs1).err with
            | some e =>
              simp only [herr]
              refine ⟨f1.trans hfm, fun q hq => d1 q (hdm q hq), ?_⟩
              simp [List.all_append, e1, FsEvent.isMkdir]
            | none =>
              simp only [herr]
              have hall2 : allDestsExistL (cloneGo s3 fuel cs (pjoin base nm) fs1).fs rest base :=
                allDestsExistL_mono fs _
                  (existsSync_mono_of fs _ (f1.trans hfm) (fun q hq => d1 q (hdm q hq)))
                  rest base h2
              obtain ⟨f2, d2, e2⟩ := ih rest base _ hall2
              refine ⟨f2.trans (f1.trans hfm), fun q hq => d2 q (d1 q (hdm q hq)), ?_⟩
              simp [List.all_append, e1, e2, FsEvent.isMkdir]

/-- Claim C4: cloning a hierarchy whose every file node already has its
destination present performs no fetch and no write: the event trace holds
directory creations only, and the stored files (paths and bytes alike) are
exactly what they were. -/
theorem clone_idempotent (s3 : S3Store) (h : Node) (base : FPath) (fs : FS)
    (hall : allDestsExist fs h base = true) :
    (cloneCloudRepo s3 h base fs).fs.files = fs.files
    ∧ (cloneCloudRepo s3 h base fs).evs.all FsEvent.isMkdir = true := by
  have hl : allDestsExistL fs [h] base = true := by
    simp [allDestsExistL, hall]
  obtain ⟨f1, -, e1⟩ := cloneGo_idem s3 (nodeSize h) [h] base fs hl
  exact ⟨f1, e1⟩

theorem clone_idempotent_witness :
    (cloneCloudRepo c2s3 c4tree ["base"] c4fs).fs.files = c4fs.files
    ∧ (cloneCloudRepo c2s3 c4tree ["base"] c4fs).evs.all FsEvent.isMkdir = true :=
  clone_idempotent c2s3 c4tree ["base"] c4fs rfl

/-! ## Fetch failures during materialization (claims C5 and C2) -/

/-- Claim C5 counterexample: the remote object of the file node cannot be
fetched (s3get yields none), yet the pull run finishes with no error: the
fetch failure is absorbed inside getFileContentFromS3 and the file is
silently skipped, against the claim that a RemoteFetchError reaches the
caller. -/
theorem fetch_failure_silent_cex :
    s3get [] "k" = none
    ∧ (pullCloudRepo [] c5node ["d"] emptyFS).err = none
    ∧ FsEvent.fetch "k" ∈ (pullCloudRepo [] c5node ["d"] emptyFS).evs :=
  ⟨rfl, rfl, by decide⟩

/-- Claim C5 amended: when the object body of a file node cannot be
retrieved, getFileContentFromS3 catches the failure, logs it and returns
null.  In pull the null is discarded: the walk continues, the file is
silently skipped and no error reaches the caller.  In clone the null flows
into path.dirname, which throws a TypeError (the source has no
RemoteFetchError at all). -/
theorem fetch_failure_behavior (s3 : S3Store) (nm kp : String) (m : Bool)
    (base : FPath) (fs fs1 : FS)
    (hfail : s3get s3 kp = none)
    (hne : existsSync fs (pjoin base nm) = false)
    (hmk : mkdirRec fs (pjoin base nm).dropLast = .ok fs1) :
    (pullCloudRepo s3 (.file nm kp m) base fs).err = none
    ∧ FsEvent.fetch kp ∈ (pullCloudRepo s3 (.file nm kp m) base fs).evs
    ∧ (pullCloudRepo s3 (.file nm kp m) base fs).fs = fs1
    ∧ (cloneCloudRepo s3 (.file nm kp m) base fs).err = some .typeError
    ∧ FsEvent.fetch kp ∈ (cloneCloudRepo s3 (.file nm kp m) base fs).evs := by
  have hmod : isFileModified s3 fs kp (pjoin base nm) = some true := by
    simp [isFileModified, hne]
  have hpull : pullCloudRepo s3 (.file nm kp m) base fs =
      ⟨fs1, [.mkdir (pjoin base nm).dropLast, .fetch kp], none⟩ := by
    have h0 : pullCloudRepo s3 (.file nm kp m) base fs =
        pullGo s3 (0 + 1) [.file nm kp m] base fs := rfl
    rw [h0]
    simp [pullGo, hmod, hmk, getFileContentFromS3, hfail]
  have hclone : cloneCloudRepo s3 (.file nm kp m) base fs =
      ⟨fs, [.fetch kp], some .typeError⟩ := by
    have h0 : cloneCloudRepo s3 (.file nm kp m) base fs =
        cloneGo s3 (0 + 1) [.file nm kp m] base fs := rfl
    rw [h0]
    simp [cloneGo, hne, getFileContentFromS3, hfail]
  rw [hpull, hclone]
  exact ⟨rfl, by simp, rfl, rfl, by simp⟩

theorem fetch_failure_behavior_witness :
    (pullCloudRepo [] c5node ["d"] emptyFS).err = none
    ∧ FsEvent.fetch "k" ∈ (pullCloudRepo [] c5node ["d"] emptyFS).evs
    ∧ (pullCloudRepo [] c5node ["d"] emptyFS).fs = ⟨[], [["d"]]⟩
    ∧ (cloneCloudRepo [] c5node ["d"] emptyFS).err = some .typeError
    ∧ FsEvent.fetch "k" ∈ (cloneCloudRepo [] c5node ["d"] emptyFS).evs :=
  fetch_failure_behavior [] "f" "k" false ["d"] emptyFS ⟨[], [["d"]]⟩ rfl rfl rfl

/-- Claim C2 counterexample: the listing with keys x/y and x builds
successfully, every listed object is fetchable, and the clone of the built
hierarchy into an empty local tree finishes without error, yet no local FILE
exists at the destination derived from the key x: a directory occupies that
path, so the existsSync guard skipped the file forever. -/
theorem clone_completeness_cex :
    getBucketHierarchy "repo" c2keys = .ok c2tree
    ∧ c2keys.all (fun K => (s3get c2s3 K).isSome) = true
    ∧ "x" ∈ c2keys
    ∧ (cloneCloudRepo c2s3 c2tree ["base"] emptyFS).err = none
    ∧ fileIn (cloneCloudRepo c2s3 c2tree ["base"] emptyFS).fs
        (derivedFPath ["base"] "repo" "x") = false :=
  ⟨rfl, rfl, by decide, rfl, rfl⟩

/-! ## Position bounds and name facts for the remote builder -/

theorem namesNEL_append (a b : List Node) :
    namesNEL (a ++ b) = (namesNEL a && namesNEL b) := by
  induction a with
  | nil => simp [namesNEL]
  | cons c cs ih => simp [namesNEL, ih, Bool.and_assoc]

theorem splitAux_ne_nil : ∀ (cs acc : List Char), splitAux cs acc ≠ [] := by
  intro cs
  induction cs with
  | nil => intro acc; simp [splitAux]
  | cons c rest ih =>
    intro acc
    simp only [splitAux]
    split
    · simp
    · exact ih (c :: acc)

theorem splitSegs_ne_nil (s : String) : splitSegs s ≠ [] := splitAux_ne_nil s.data []

theorem dropLast_append_getLastD {α : Type} (d : α) :
    ∀ (l : List α), l ≠ [] → l.dropLast ++ [l.getLastD d] = l
  | [a], _ => rfl
  | a :: b :: t, _ => by
    have h2 := dropLast_append_getLastD d (b :: t) (by simp)
    rw [List.getLastD_cons] at h2
    rw [List.dropLast_cons₂, List.getLastD_cons, List.getLastD_cons, List.cons_append]
    exact congrArg (a :: ·) h2

theorem getLastD_mem {α : Type} (d : α) :
    ∀ (l : List α), l ≠ [] → l.getLastD d ∈ l
  | [a], _ => by simp [List.getLastD]
  | a :: b :: t, _ => by
    have h2 := getLastD_mem d (b :: t) (by simp)
    rw [List.getLastD_cons] at h2
    rw [List.getLastD_cons, List.getLastD_cons]
    exact List.mem_cons_of_mem a h2

theorem insertGo_bounds (key : String) (parts : List String) :
    ∀ (rem : List String) (i : Nat) (cur cur2 : Node),
      insertGo key parts i rem cur = .ok cur2 →
      (∀ x, x ∈ filePos cur2 →
        x ∈ filePos cur ∨ x = (cur.name :: rem ++ [parts.getLastD ""], key))
      ∧ (∀ r, r ∈ folderPos cur2 →
        r ∈ folderPos cur ∨ ∃ j, j ≤ rem.length ∧ r = cur.name :: rem.take j) := by
  intro rem
  induction rem with
  | nil =>
    intro i cur cur2 h
    cases cur with
    | file a b m => rw [insertGo_file] at h; cases h
    | folder n p m cs =>
      simp only [insertGo, Except.ok.injEq] at h
      subst h
      constructor
      · intro x hx
        simp only [filePos, filePosL_append, filePosL, List.append_nil] at hx
        rcases List.mem_map.mp hx with ⟨y, hy, rfl⟩
        rcases List.mem_append.mp hy with h1 | h1
        · exact Or.inl (by simp only [filePos]; exact List.mem_map.mpr ⟨y, h1, rfl⟩)
        · simp only [filePos, List.mem_singleton] at h1
          subst h1
          exact Or.inr (by simp [Node.name])
      · intro r hr
        simp only [folderPos, folderPosL_append, folderPosL, List.append_nil] at hr
        rcases List.mem_cons.mp hr with h1 | h1
        · exact Or.inl (by simp [folderPos, h1])
        · rcases List.mem_map.mp h1 with ⟨y, hy, rfl⟩
          exact Or.inl (by
            simp only [folderPos, List.mem_cons]
            exact Or.inr (List.mem_map.mpr ⟨y, hy, rfl⟩))
  | cons s rest ih =>
    intro i cur cur2 h
    cases cur with
    | file a b m => rw [insertGo_file] at h; cases h
    | folder n p m cs =>
      simp only [insertGo] at h
      split at h
      · rename_i pre c suf hsp
        obtain ⟨hcs, hcname⟩ := splitAtName_some hsp
        split at h
        · cases h
        · rename_i c2 hins
          simp only [Except.ok.injEq] at h
          subst h
          obtain ⟨hfb, hdb⟩ := ih (i + 1) c c2 hins
          subst hcs
          constructor
          · intro x hx
            simp only [filePos] at hx ⊢
            rcases List.mem_map.mp hx with ⟨y, hy, rfl⟩
            rw [filePosL_append, filePosL] at hy
            simp only [List.mem_append, List.mem_cons] at hy
            rcases hy with h1 | h1 | h1
            · exact Or.inl (List.mem_map.mpr ⟨y,
                by rw [filePosL_append, filePosL]; simp [h1], rfl⟩)
            · rcases hfb y h1 with h2 | h2
              · exact Or.inl (List.mem_map.mpr ⟨y,
                  by rw [filePosL_append, filePosL]; simp [h2], rfl⟩)
              · subst h2
                right
                rw [hcname]
                simp [Node.name]
            · exact Or.inl (List.mem_map.mpr ⟨y,
                by rw [filePosL_append, filePosL]; simp [h1], rfl⟩)
          · intro r hr
            simp only [folderPos] at hr ⊢
            rcases List.mem_cons.mp hr with h1 | h1
            · exact Or.inl (by simp [h1])
            · rcases List.mem_map.mp h1 with ⟨y, hy, rfl⟩
              rw [folderPosL_append, folderPosL] at hy
              simp only [List.mem_append, List.mem_cons] at hy
              rcases hy with h1 | h1 | h1
              · exact Or.inl (by
                  simp only [List.mem_cons]
                  exact Or.inr (List.mem_map.mpr ⟨y,
                    by rw [folderPosL_append, folderPosL]; simp [h1], rfl⟩))
              · rcases hdb y h1 with h2 | ⟨j, hj, rfl⟩
                · exact Or.inl (by
                    simp only [List.mem_cons]
                    exact Or.inr (List.mem_map.mpr ⟨y,
                      by rw [folderPosL_append, folderPosL]; simp [h2], rfl⟩))
                · right
                  refine ⟨j + 1, by simpa using Nat.succ_le_succ hj, ?_⟩
                  rw [hcname]
                  simp [Node.name, List.take]
              · exact Or.inl (by
                  simp only [List.mem_cons]
                  exact Or.inr (List.mem_map.mpr ⟨y,
                    by rw [folderPosL_append, folderPosL]; simp [h1], rfl⟩))
      · rename_i hsp
        split at h
        · cases h
        · rename_i c2 hins
          simp only [Except.ok.injEq] at h
          subst h
          obtain ⟨hfb, hdb⟩ := ih (i + 1) _ c2 hins
          constructor
          · intro x hx
            simp only [filePos] at hx ⊢
            rcases List.mem_map.mp hx with ⟨y, hy, rfl⟩
            rw [filePosL_append] at hy
            simp only [filePosL, List.append_nil, List.mem_append] at hy
            rcases hy with h1 | h1
            · exact Or.inl (List.mem_map.mpr ⟨y, h1, rfl⟩)
            · rcases hfb y h1 with h2 | h2
              · simp [filePos, filePosL] at h2
              · subst h2
                right
                simp [Node.name]
          · intro r hr
            simp only [folderPos] at hr ⊢
            rcases List.mem_cons.mp hr with h1 | h1
            · exact Or.inl (by simp [h1])
            · rcases List.mem_map.mp h1 with ⟨y, hy, rfl⟩
              rw [folderPosL_append] at hy
              simp only [folderPosL, List.append_nil, List.mem_append] at hy
              rcases hy with h1 | h1
              · exact Or.inl (by
                  simp only [List.mem_cons]
                  exact Or.inr (List.mem_map.mpr ⟨y, h1, rfl⟩))
              · rcases hdb y h1 with h2 | ⟨j, hj, rfl⟩
                · simp only [folderPos, folderPosL, List.map_nil, List.mem_singleton] at h2
                  subst h2
                  right
                  exact ⟨1, by simp, by simp [Node.name, List.take]⟩
                · right
                  refine ⟨j + 1, by simpa using Nat.succ_le_succ hj, ?_⟩
                  simp [Node.name, List.take]

theorem insertGo_namesNE (key : String) (parts : List String)
    (hlast : parts.getLastD "" ≠ "") :
    ∀ (rem : List String) (i : Nat) (cur cur2 : Node),
      (∀ s ∈ rem, s ≠ "") →
      insertGo key parts i rem cur = .ok cur2 →
      namesNE cur = true → namesNE cur2 = true := by
  intro rem
  induction rem with
  | nil =>
    intro i cur cur2 hrem h hne
    cases cur with
    | file a b m => rw [insertGo_file] at h; cases h
    | folder n p m cs =>
      simp only [insertGo, Except.ok.injEq] at h
      subst h
      simp only [namesNE, namesNEL_append, namesNEL, Bool.and_eq_true] at hne ⊢
      refine ⟨hne.1, hne.2, ?_, trivial⟩
      simpa using hlast
  | cons s rest ih =>
    intro i cur cur2 hrem h hne
    cases cur with
    | file a b m => rw [insertGo_file] at h; cases h
    | folder n p m cs =>
      have hs : s ≠ "" := hrem s (by simp)
      have hrest : ∀ t ∈ rest, t ≠ "" := fun t ht => hrem t (by simp [ht])
      simp only [insertGo] at h
      split at h
      · rename_i pre c suf hsp
        obtain ⟨hcs, hcname⟩ := splitAtName_some hsp
        split at h
        · cases h
        · rename_i c2 hins
          simp only [Except.ok.injEq] at h
          subst h
          subst hcs
          simp only [namesNE, namesNEL_append, namesNEL, Bool.and_eq_true] at hne ⊢
          obtain ⟨h0, h1, h2, h3⟩ := hne
          exact ⟨h0, h1, ih i.succ c c2 hrest hins h2, h3⟩
      · rename_i hsp
        split at h
        · cases h
        · rename_i c2 hins
          simp only [Except.ok.injEq] at h
          subst h
          simp only [namesNE, namesNEL_append, namesNEL, Bool.and_eq_true] at hne ⊢
          have hfresh : namesNE (.folder s (joinSegs (parts.take (i + 1))) false []) = true := by
            simp [namesNE, namesNEL, hs]
          exact ⟨hne.1, hne.2, ih i.succ _ c2 hrest hins hfresh, trivial⟩

theorem buildGo_ok_folder :
    ∀ (keys : List String) (n p : String) (m : Bool) (cs : List Node) (h2 : Node),
      buildGo keys (.folder n p m cs) = .ok h2 → ∃ cs2, h2 = .folder n p m cs2 := by
  intro keys
  induction keys with
  | nil =>
    intro n p m cs h2 hb
    simp only [buildGo, Except.ok.injEq] at hb
    exact ⟨cs, hb.symm⟩
  | cons k ks ih =>
    intro n p m cs h2 hb
    simp only [buildGo] at hb
    split at hb
    · cases hb
    · rename_i h1 hins
      obtain ⟨cs1, rfl⟩ := insertGo_ok_shape k (splitSegs k) (splitSegs k).dropLast 0 n p m cs h1 hins
      exact ih n p m cs1 h2 hb

theorem buildGo_namesNE :
    ∀ (keys : List String) (h h2 : Node),
      (∀ K ∈ keys, ∀ s ∈ splitSegs K, s ≠ "") →
      buildGo keys h = .ok h2 →
      namesNE h = true → namesNE h2 = true := by
  intro keys
  induction keys with
  | nil =>
    intro h h2 hwf hb hne
    simp only [buildGo, Except.ok.injEq] at hb
    subst hb; exact hne
  | cons k ks ih =>
    intro h h2 hwf hb hne
    simp only [buildGo] at hb
    split at hb
    · cases hb
    · rename_i h1 hins
      have hkeyne : ∀ s ∈ splitSegs k, s ≠ "" := hwf k (by simp)
      have hlast : (splitSegs k).getLastD "" ≠ "" :=
        hkeyne _ (getLastD_mem "" (splitSegs k) (splitSegs_ne_nil k))
      have hrem : ∀ s ∈ (splitSegs k).dropLast, s ≠ "" :=
        fun s hs => hkeyne s (List.dropLast_subset _ hs)
      have hne1 := insertGo_namesNE k (splitSegs k) hlast (splitSegs k).dropLast 0 h h1 hrem hins hne
      exact ih h1 h2 (fun K hK => hwf K (by simp [hK])) hb hne1

theorem buildGo_bounds :
    ∀ (keys : List String) (h h2 : Node), buildGo keys h = .ok h2 →
      (∀ x, x ∈ filePos h2 → x ∈ filePos h
        ∨ ∃ K ∈ keys, x = (h.name :: splitSegs K, K) ∧ splitSegs K ≠ [])
      ∧ (∀ r, r ∈ folderPos h2 → r ∈ folderPos h
        ∨ ∃ K ∈ keys, ∃ j, j ≤ (splitSegs K).dropLast.length
            ∧ r = h.name :: (splitSegs K).dropLast.take j) := by
  intro keys
  induction keys with
  | nil =>
    intro h h2 hb
    simp only [buildGo, Except.ok.injEq] at hb
    subst hb
    exact ⟨fun x hx => Or.inl hx, fun r hr => Or.inl hr⟩
  | cons k ks ih =>
    intro h h2 hb
    simp only [buildGo] at hb
    split at hb
    · cases hb
    · rename_i h1 hins
      have hname : h1.name = h.name := (insertGo_ok_name _ _ _ _ _ _ hins).1
      obtain ⟨hfb, hdb⟩ := insertGo_bounds k (splitSegs k) (splitSegs k).dropLast 0 h h1 hins
      obtain ⟨hfb2, hdb2⟩ := ih h1 h2 hb
      constructor
      · intro x hx
        rcases hfb2 x hx with h3 | ⟨K, hK, hxe, hKne⟩
        · rcases hfb x h3 with h4 | h4
          · exact Or.inl h4
          · refine Or.inr ⟨k, by simp, ?_, splitSegs_ne_nil k⟩
            rw [h4, List.cons_append,
              dropLast_append_getLastD "" (splitSegs k) (splitSegs_ne_nil k)]
        · exact Or.inr ⟨K, by simp [hK], by rw [hxe, hname], hKne⟩
      · intro r hr
        rcases hdb2 r hr with h3 | ⟨K, hK, j, hj, hre⟩
        · rcases hdb r h3 with h4 | ⟨j, hj, hre⟩
          · exact Or.inl h4
          · exact Or.inr ⟨k, by simp, j, hj, hre⟩
        · exact Or.inr ⟨K, by simp [hK], j, hj, by rw [hre, hname]⟩

/-! ## Helpers for the clone completeness invariant -/

theorem dirIn_iff_mem (fs : FS) (q : FPath) : dirIn fs q = true ↔ q ∈ fs.dirs := by
  simp [dirIn, List.any_eq_true]

theorem fileIn_of_mem {fs : FS} {e : FPath × Bytes} (he : e ∈ fs.files) :
    fileIn fs e.1 = true :=
  List.any_eq_true.mpr ⟨e, he, by simp⟩

theorem fileIn_false_iff (fs : FS) (q : FPath) :
    fileIn fs q = false ↔ ∀ e ∈ fs.files, e.1 ≠ q := by
  constructor
  · intro h e he heq
    have h2 := fileIn_of_mem he
    rw [heq, h] at h2
    cases h2
  · intro h
    cases hf : fileIn fs q
    · rfl
    · rcases List.any_eq_true.mp hf with ⟨e, he, hp⟩
      have : e.1 = q := by simpa using hp
      exact absurd this (h e he)

theorem nodeSize_pos : ∀ (n : Node), 1 ≤ nodeSize n
  | .file _ _ _ => le_refl 1
  | .folder _ _ _ cs => by simp [nodeSize]

theorem mkdirRec_eq_ok (fs : FS) (p : FPath)
    (h : (prefixesOf p).any (fun q => fileIn fs q) = false) :
    mkdirRec fs p =
      .ok ⟨fs.files, fs.dirs ++ (prefixesOf p).filter (fun q => !(dirIn fs q))⟩ := by
  simp [mkdirRec, h]

theorem self_mem_prefixesOf (p : FPath) (h : p ≠ []) : p ∈ prefixesOf p := by
  simp only [prefixesOf, List.mem_map, List.mem_range]
  have hl : 1 ≤ p.length := List.length_pos.mpr h
  exact ⟨p.length - 1, by omega, by rw [show p.length - 1 + 1 = p.length by omega, List.take_length]⟩

theorem mem_prefixesOf_iff (q x : FPath) :
    q ∈ prefixesOf x ↔ ∃ i, i < x.length ∧ q = x.take (i + 1) := by
  simp only [prefixesOf, List.mem_map, List.mem_range]
  constructor
  · rintro ⟨i, hi, rfl⟩; exact ⟨i, hi, rfl⟩
  · rintro ⟨i, hi, rfl⟩; exact ⟨i, hi, rfl⟩

theorem take_mem_prefixesOf {q x : FPath} (hq : q ∈ prefixesOf x) (j : Nat)
    (h1 : 1 ≤ j) (h2 : j ≤ q.length) : q.take j ∈ prefixesOf x := by
  rcases (mem_prefixesOf_iff q x).mp hq with ⟨i, hi, rfl⟩
  rw [List.take_take]
  rw [List.length_take] at h2
  refine (mem_prefixesOf_iff _ x).mpr ⟨j - 1, by omega, ?_⟩
  have : min j (i + 1) = j := by omega
  rw [this]
  congr 1
  omega

theorem mem_prefixClosure_self {x : FPath} {L : List FPath} (hx : x ∈ L) :
    x ∈ prefixClosure L := by
  by_cases hxe : x = []
  · subst hxe; simp [prefixClosure]
  · simp only [prefixClosure, List.mem_cons, List.mem_flatMap]
    exact Or.inr ⟨x, hx, self_mem_prefixesOf x hxe⟩

theorem take_mem_prefixClosure {x : FPath} {L : List FPath} (hx : x ∈ L) (j : Nat)
    (hj : j ≤ x.length) : x.take j ∈ prefixClosure L := by
  cases hj0 : j with
  | zero => simp [prefixClosure]
  | succ j2 =>
    subst hj0
    simp only [prefixClosure, List.mem_cons, List.mem_flatMap]
    refine Or.inr ⟨x, hx, (mem_prefixesOf_iff _ x).mpr ⟨j2, by omega, rfl⟩⟩

theorem prefixClosure_closed {L : List FPath} :
    ∀ q ∈ prefixClosure L, ∀ j, 1 ≤ j → j ≤ q.length → q.take j ∈ prefixClosure L := by
  intro q hq j h1 h2
  simp only [prefixClosure, List.mem_cons, List.mem_flatMap] at hq
  rcases hq with rfl | ⟨x, hx, hqx⟩
  · simp at h2; omega
  · simp only [prefixClosure, List.mem_cons, List.mem_flatMap]
    exact Or.inr ⟨x, hx, take_mem_prefixesOf hqx j h1 h2⟩

theorem cloneGo_invariant (s3 : S3Store) (F0 D0 : List FPath)
    (hdisj : ∀ q, q ∈ F0 → q ∉ D0)
    (hDcl : ∀ q, q ∈ D0 → ∀ j, 1 ≤ j → j ≤ q.length → q.take j ∈ D0) :
    ∀ (fuel : Nat) (l : List Node) (base : FPath) (fs : FS),
      nodesSize l ≤ fuel →
      (∀ e, e ∈ fs.files → e.1 ∈ F0) →
      (∀ q, q ∈ fs.dirs → q ∈ D0) →
      (∀ pr, pr ∈ filePosL l → base ++ pr.1 ∈ F0) →
      (∀ r, r ∈ folderPosL l → base ++ r ∈ D0) →
      (∀ pr, pr ∈ filePosL l → (s3get s3 pr.2).isSome = true) →
      namesNEL l = true →
      base ∈ D0 →
      (hasTopFile l = true → dirIn fs base = true) →
      ((cloneGo s3 fuel l base fs).err = none
        ∧ (∀ e, e ∈ (cloneGo s3 fuel l base fs).fs.files → e.1 ∈ F0)
        ∧ (∀ q, q ∈ (cloneGo s3 fuel l base fs).fs.dirs → q ∈ D0)
        ∧ (∀ e, e ∈ fs.files → e ∈ (cloneGo s3 fuel l base fs).fs.files)
        ∧ (∀ q, q ∈ fs.dirs → q ∈ (cloneGo s3 fuel l base fs).fs.dirs)
        ∧ (∀ pr, pr ∈ filePosL l → fileIn (cloneGo s3 fuel l base fs).fs (base ++ pr.1) = true)
        ∧ (∀ r, r ∈ folderPosL l → dirIn (cloneGo s3 fuel l base fs).fs (base ++ r) = true)) := by
  intro fuel
  induction fuel with
  | zero =>
    intro l base fs hsz hinvF hinvD hF hD hfetch hne hbase hast
    cases l with
    | nil =>
      refine ⟨rfl, hinvF, hinvD, fun e he => he, fun q hq => hq, ?_, ?_⟩
      · intro pr hpr; simp [filePosL] at hpr
      · intro r hr; simp [folderPosL] at hr
    | cons node rest =>
      exfalso
      have h1 := nodeSize_pos node
      simp only [nodesSize] at hsz
      omega
  | succ fuel ih =>
    intro l base fs hsz hinvF hinvD hF hD hfetch hne hbase hast
    cases l with
    | nil =>
      refine ⟨rfl, hinvF, hinvD, fun e he => he, fun q hq => hq, ?_, ?_⟩
      · intro pr hpr; simp [filePosL] at hpr
      · intro r hr; simp [folderPosL] at hr
    | cons node rest =>
      have hsz1 : nodesSize rest ≤ fuel := by
        have h1 := nodeSize_pos node
        simp only [nodesSize] at hsz
        omega
      have hFn : ∀ pr, pr ∈ filePos node → base ++ pr.1 ∈ F0 := fun pr hpr =>
        hF pr (by simp only [filePosL, List.mem_append]; exact Or.inl hpr)
      have hFr : ∀ pr, pr ∈ filePosL rest → base ++ pr.1 ∈ F0 := fun pr hpr =>
        hF pr (by simp only [filePosL, List.mem_append]; exact Or.inr hpr)
      have hDn : ∀ r, r ∈ folderPos node → base ++ r ∈ D0 := fun r hr =>
        hD r (by simp only [folderPosL, List.mem_append]; exact Or.inl hr)
      have hDr : ∀ r, r ∈ folderPosL rest → base ++ r ∈ D0 := fun r hr =>
        hD r (by simp only [folderPosL, List.mem_append]; exact Or.inr hr)
      have hfetchn : ∀ pr, pr ∈ filePos node → (s3get s3 pr.2).isSome = true := fun pr hpr =>
        hfetch pr (by simp only [filePosL, List.mem_append]; exact Or.inl hpr)
      have hfetchr : ∀ pr, pr ∈ filePosL rest → (s3get s3 pr.2).isSome = true := fun pr hpr =>
        hfetch pr (by simp only [filePosL, List.mem_append]; exact Or.inr hpr)
      have hnen : namesNE node = true ∧ namesNEL rest = true := by
        simpa [namesNEL, Bool.and_eq_true] using hne
      cases node with
      | file nm kp m =>
        have hnm : nm ≠ "" := by simpa [namesNE] using hnen.1
        have hdest : pjoin base nm = base ++ [nm] := by simp [pjoin, hnm]
        have hdF : base ++ [nm] ∈ F0 := by
          have := hFn ([nm], kp) (by simp [filePos])
          simpa using this
        have hnotdir : dirIn fs (base ++ [nm]) = false := by
          cases hdi : dirIn fs (base ++ [nm]) with
          | false => rfl
          | true => exact absurd (hinvD _ ((dirIn_iff_mem fs _).mp hdi)) (hdisj _ hdF)
        simp only [cloneGo, hdest]
        by_cases hex : existsSync fs (base ++ [nm]) = true
        · rw [if_pos hex]
          have hfile : fileIn fs (base ++ [nm]) = true := by
            have hor : fileIn fs (base ++ [nm]) = true ∨ dirIn fs (base ++ [nm]) = true := by
              simpa [existsSync] using hex
            rcases hor with h1 | h1
            · exact h1
            · rw [h1] at hnotdir; cases hnotdir
          obtain ⟨e0, he0, he0q⟩ := List.any_eq_true.mp hfile
          have he0q2 : e0.1 = base ++ [nm] := by simpa using he0q
          obtain ⟨herr, hiF, hiD, hgF, hgD, hrF, hrD⟩ :=
            ih rest base fs hsz1 hinvF hinvD hFr hDr hfetchr hnen.2 hbase
              (fun _ => hast (by simp [hasTopFile]))
          refine ⟨herr, hiF, hiD, hgF, hgD, ?_, ?_⟩
          · intro pr hpr
            simp only [filePosL, List.mem_append] at hpr
            rcases hpr with h1 | h1
            · simp only [filePos, List.mem_singleton] at h1
              subst h1
              have h2 := fileIn_of_mem (hgF e0 he0)
              rwa [he0q2] at h2
            · exact hrF pr h1
          · intro r hr
            simp only [folderPosL, List.mem_append] at hr
            rcases hr with h1 | h1
            · simp [folderPos] at h1
            · exact hrD r h1
        · have hexf : existsSync fs (base ++ [nm]) = false := by simpa using hex
          rw [if_neg (by simp [hexf])]
          have hgs : (s3get s3 kp).isSome = true := by
            have := hfetchn ([nm], kp) (by simp [filePos])
            simpa using this
          obtain ⟨body, hget⟩ := Option.isSome_iff_exists.mp hgs
          have hdirbase : dirIn fs base = true := hast (by simp [hasTopFile])
          have hfilef : fileIn fs (base ++ [nm]) = false := by
            have h2 := hexf
            simp only [existsSync, Bool.or_eq_false_iff] at h2
            exact h2.1
          have hfr : getFileContentFromS3 s3 kp (base ++ [nm]) fs =
              ⟨writeFile fs (base ++ [nm]) body, [.fetch kp, .write (base ++ [nm])],
                some (base ++ [nm]), none⟩ := by
            simp [getFileContentFromS3, hget, List.dropLast_concat, hdirbase, hnotdir]
          rw [hfr]
          have hmkg : (prefixesOf base).any
              (fun q => fileIn (writeFile fs (base ++ [nm]) body) q) = false := by
            cases hany : (prefixesOf base).any
                (fun q => fileIn (writeFile fs (base ++ [nm]) body) q) with
            | false => rfl
            | true =>
              exfalso
              rcases List.any_eq_true.mp hany with ⟨q, hqmem, hqf⟩
              have hqD : q ∈ D0 := by
                rcases (mem_prefixesOf_iff q base).mp hqmem with ⟨i, hi, rfl⟩
                exact hDcl base hbase (i + 1) (by omega) (by simpa using Nat.succ_le_of_lt hi)
              rcases List.any_eq_true.mp hqf with ⟨e, hemem, hep⟩
              have hepq : e.1 = q := by simpa using hep
              simp only [writeFile, List.mem_cons, List.mem_filter] at hemem
              rcases hemem with rfl | ⟨heold, -⟩
              · simp only at hepq
                rw [← hepq] at hqD
                exact hdisj _ hdF hqD
              · have := hinvF e heold
                rw [hepq] at this
                exact hdisj _ this hqD
          have hmk := mkdirRec_eq_ok (writeFile fs (base ++ [nm]) body) base hmkg
          simp only [List.dropLast_concat]
          rw [hmk]
          have hwdirs : (writeFile fs (base ++ [nm]) body).dirs = fs.dirs := rfl
          have f2F : ∀ e, e ∈ ((⟨(writeFile fs (base ++ [nm]) body).files,
              (writeFile fs (base ++ [nm]) body).dirs ++ (prefixesOf base).filter
                (fun q => !(dirIn (writeFile fs (base ++ [nm]) body) q))⟩ : FS)).files →
              e.1 ∈ F0 := by
            intro e he
            simp only [writeFile, List.mem_cons, List.mem_filter] at he
            rcases he with rfl | ⟨heold, -⟩
            · exact hdF
            · exact hinvF e heold
          have f2D : ∀ q, q ∈ ((⟨(writeFile fs (base ++ [nm]) body).files,
              (writeFile fs (base ++ [nm]) body).dirs ++ (prefixesOf base).filter
                (fun q => !(dirIn (writeFile fs (base ++ [nm]) body) q))⟩ : FS)).dirs →
              q ∈ D0 := by
            intro q hq
            simp only [hwdirs, List.mem_append, List.mem_filter] at hq
            rcases hq with hq | ⟨hq, -⟩
            · exact hinvD q hq
            · rcases (mem_prefixesOf_iff q base).mp hq with ⟨i, hi, rfl⟩
              exact hDcl base hbase (i + 1) (by omega) (by simpa using Nat.succ_le_of_lt hi)
          have f2growF : ∀ e, e ∈ fs.files → e ∈ ((⟨(writeFile fs (base ++ [nm]) body).files,
              (writeFile fs (base ++ [nm]) body).dirs ++ (prefixesOf base).filter
                (fun q => !(dirIn (writeFile fs (base ++ [nm]) body) q))⟩ : FS)).files := by
            intro e he
            simp only [writeFile, List.mem_cons, List.mem_filter]
            right
            refine ⟨he, ?_⟩
            have hne2 : e.1 ≠ base ++ [nm] := (fileIn_false_iff fs _).mp hfilef e he
            simp [hne2]
          have f2growD : ∀ q, q ∈ fs.dirs → q ∈ ((⟨(writeFile fs (base ++ [nm]) body).files,
              (writeFile fs (base ++ [nm]) body).dirs ++ (prefixesOf base).filter
                (fun q => !(dirIn (writeFile fs (base ++ [nm]) body) q))⟩ : FS)).dirs := by
            intro q hq
            simp only [hwdirs, List.mem_append]
            exact Or.inl hq
          have f2base : dirIn (⟨(writeFile fs (base ++ [nm]) body).files,
              (writeFile fs (base ++ [nm]) body).dirs ++ (prefixesOf base).filter
                (fun q => !(dirIn (writeFile fs (base ++ [nm]) body) q))⟩ : FS) base = true := by
            rw [dirIn_iff_mem]
            exact f2growD base ((dirIn_iff_mem fs base).mp hdirbase)
          have f2dest : ((base ++ [nm], body) : FPath × Bytes) ∈
              ((⟨(writeFile fs (base ++ [nm]) body).files,
              (writeFile fs (base ++ [nm]) body).dirs ++ (prefixesOf base).filter
                (fun q => !(dirIn (writeFile fs (base ++ [nm]) body) q))⟩ : FS)).files := by
            simp [writeFile]
          obtain ⟨herr, hiF, hiD, hgF, hgD, hrF, hrD⟩ :=
            ih rest base _ hsz1 f2F f2D hFr hDr hfetchr hnen.2 hbase (fun _ => f2base)
          refine ⟨herr, hiF, hiD,
            fun e he => hgF e (f2growF e he), fun q hq => hgD q (f2growD q hq), ?_, ?_⟩
          · intro pr hpr
            simp only [filePosL, List.mem_append] at hpr
            rcases hpr with h1 | h1
            · simp only [filePos, List.mem_singleton] at h1
              subst h1
              exact fileIn_of_mem (hgF _ f2dest)
            · exact hrF pr h1
          · intro r hr
            simp only [folderPosL, List.mem_append] at hr
            rcases hr with h1 | h1
            · simp [folderPos] at h1
            · exact hrD r h1
      | folder nm p m cs =>
        have hnm : nm ≠ "" := by
          have := hnen.1
          simp only [namesNE, Bool.and_eq_true] at this
          simpa using this.1
        have hnec : namesNEL cs = true := by
          have := hnen.1
          simp only [namesNE, Bool.and_eq_true] at this
          exact this.2
        have hdest : pjoin base nm = base ++ [nm] := by simp [pjoin, hnm]
        have hdD : base ++ [nm] ∈ D0 := by
          have := hDn [nm] (by simp [folderPos])
          simpa using this
        have hnotfile : fileIn fs (base ++ [nm]) = false := by
          cases hfi : fileIn fs (base ++ [nm]) with
          | false => rfl
          | true =>
            exfalso
            rcases List.any_eq_true.mp hfi with ⟨e, he, hep⟩
            have hepq : e.1 = base ++ [nm] := by simpa using hep
            have h2 := hinvF e he
            rw [hepq] at h2
            exact hdisj _ h2 hdD
        have hszc : nodesSize cs ≤ fuel := by
          simp only [nodesSize, nodeSize] at hsz
          omega
        have hFc : ∀ pr, pr ∈ filePosL cs → (base ++ [nm]) ++ pr.1 ∈ F0 := by
          intro pr hpr
          have := hFn (nm :: pr.1, pr.2)
            (by simp only [filePos]; exact List.mem_map.mpr ⟨pr, hpr, rfl⟩)
          simpa [List.append_assoc] using this
        have hDc : ∀ r, r ∈ folderPosL cs → (base ++ [nm]) ++ r ∈ D0 := by
          intro r hr
          have := hDn (nm :: r)
            (by simp only [folderPos, List.mem_cons]
                exact Or.inr (List.mem_map.mpr ⟨r, hr, rfl⟩))
          simpa [List.append_assoc] using this
        have hfetchc : ∀ pr, pr ∈ filePosL cs → (s3get s3 pr.2).isSome = true := by
          intro pr hpr
          exact hfetchn (nm :: pr.1, pr.2)
            (by simp only [filePos]; exact List.mem_map.mpr ⟨pr, hpr, rfl⟩)
        have hastr : ∀ (fsx : FS), (∀ q, q ∈ fs.dirs → q ∈ fsx.dirs) →
            hasTopFile rest = true → dirIn fsx base = true := by
          intro fsx hsub ht
          rw [dirIn_iff_mem]
          exact hsub base ((dirIn_iff_mem fs base).mp (hast (by simpa [hasTopFile] using ht)))
        by_cases hex : existsSync fs (base ++ [nm]) = true
        · have hdirdest : dirIn fs (base ++ [nm]) = true := by
            have hor : fileIn fs (base ++ [nm]) = true ∨ dirIn fs (base ++ [nm]) = true := by
              simpa [existsSync] using hex
            rcases hor with h1 | h1
            · rw [h1] at hnotfile; cases hnotfile
            · exact h1
          have hde : dirEnsure fs (pjoin base nm) = (.ok fs, []) := by
            rw [hdest]; simp [dirEnsure, hex]
          rw [cloneGo_folder_ok s3 fuel nm p m cs rest base fs fs [] hde, hdest]
          obtain ⟨cerr, ciF, ciD, cgF, cgD, crF, crD⟩ :=
            ih cs (base ++ [nm]) fs hszc hinvF hinvD hFc hDc hfetchc hnec hdD
              (fun _ => hdirdest)
          rw [cerr]
          obtain ⟨rerr, riF, riD, rgF, rgD, rrF, rrD⟩ :=
            ih rest base _ hsz1 ciF ciD hFr hDr hfetchr hnen.2 hbase
              (hastr _ cgD)
          refine ⟨rerr, riF, riD,
            fun e he => rgF e (cgF e he), fun q hq => rgD q (cgD q hq), ?_, ?_⟩
          · intro pr hpr
            simp only [filePosL, List.mem_append] at hpr
            rcases hpr with h1 | h1
            · simp only [filePos] at h1
              rcases List.mem_map.mp h1 with ⟨y, hy, rfl⟩
              have h2 := crF y hy
              rcases List.any_eq_true.mp h2 with ⟨e, he, hep⟩
              have hepq : e.1 = (base ++ [nm]) ++ y.1 := by simpa using hep
              have h3 := fileIn_of_mem (rgF e he)
              rw [hepq] at h3
              simpa [List.append_assoc] using h3
            · exact rrF pr h1
          · intro r hr
            simp only [folderPosL, List.mem_append] at hr
            rcases hr with h1 | h1
            · simp only [folderPos, List.mem_cons] at h1
              rcases h1 with rfl | h1
              · rw [dirIn_iff_mem]
                exact rgD _ (cgD _ ((dirIn_iff_mem fs _).mp hdirdest))
              · rcases List.mem_map.mp h1 with ⟨y, hy, rfl⟩
                have h2 := crD y hy
                rw [dirIn_iff_mem] at h2 ⊢
                have h3 := rgD _ h2
                simpa [List.append_assoc] using h3
            · exact rrD r h1
        · have hexf : existsSync fs (base ++ [nm]) = false := by simpa using hex
          have hdirf : dirIn fs (base ++ [nm]) = false := by
            have h2 := hexf
            simp only [existsSync, Bool.or_eq_false_iff] at h2
            exact h2.2
          have hmkg : (prefixesOf (base ++ [nm])).any (fun q => fileIn fs q) = false := by
            cases hany : (prefixesOf (base ++ [nm])).any (fun q => fileIn fs q) with
            | false => rfl
            | true =>
              exfalso
              rcases List.any_eq_true.mp hany with ⟨q, hqmem, hqf⟩
              have hqD : q ∈ D0 := by
                rcases (mem_prefixesOf_iff q (base ++ [nm])).mp hqmem with ⟨i, hi, rfl⟩
                exact hDcl _ hdD (i + 1) (by omega) (by simpa using Nat.succ_le_of_lt hi)
              rcases List.any_eq_true.mp hqf with ⟨e, hemem, hep⟩
              have hepq : e.1 = q := by simpa using hep
              have h2 := hinvF e hemem
              rw [hepq] at h2
              exact hdisj _ h2 hqD
          have hmk := mkdirRec_eq_ok fs (base ++ [nm]) hmkg
          have hde : dirEnsure fs (pjoin base nm) =
              (.ok ⟨fs.files, fs.dirs ++ (prefixesOf (base ++ [nm])).filter
                (fun q => !(dirIn fs q))⟩, [.mkdir (pjoin base nm)]) := by
            rw [hdest]
            simp only [dirEnsure, hexf, Bool.false_eq_true, if_false, hmk]
          rw [cloneGo_folder_ok s3 fuel nm p m cs rest base fs _ _ hde, hdest]
          have f1D : ∀ q, q ∈ ((⟨fs.files, fs.dirs ++ (prefixesOf (base ++ [nm])).filter
              (fun q => !(dirIn fs q))⟩ : FS)).dirs → q ∈ D0 := by
            intro q hq
            simp only [List.mem_append, List.mem_filter] at hq
            rcases hq with hq | ⟨hq, -⟩
            · exact hinvD q hq
            · rcases (mem_prefixesOf_iff q (base ++ [nm])).mp hq with ⟨i, hi, rfl⟩
              exact hDcl _ hdD (i + 1) (by omega) (by simpa using Nat.succ_le_of_lt hi)
          have f1growD : ∀ q, q ∈ fs.dirs → q ∈ ((⟨fs.files,
              fs.dirs ++ (prefixesOf (base ++ [nm])).filter
              (fun q => !(dirIn fs q))⟩ : FS)).dirs := by
            intro q hq
            simp only [List.mem_append]
            exact Or.inl hq
          have f1dest : dirIn (⟨fs.files, fs.dirs ++ (prefixesOf (base ++ [nm])).filter
              (fun q => !(dirIn fs q))⟩ : FS) (base ++ [nm]) = true := by
            rw [dirIn_iff_mem]
            simp only [List.mem_append, List.mem_filter]
            right
            exact ⟨self_mem_prefixesOf _ (by simp), by simp [hdirf]⟩
          obtain ⟨cerr, ciF, ciD, cgF, cgD, crF, crD⟩ :=
            ih cs (base ++ [nm])
              (⟨fs.files, fs.dirs ++ (prefixesOf (base ++ [nm])).filter
                (fun q => !(dirIn fs q))⟩ : FS)
              hszc (fun e he => hinvF e he) f1D hFc hDc hfetchc hnec hdD
              (fun _ => f1dest)
          rw [cerr]
          obtain ⟨rerr, riF, riD, rgF, rgD, rrF, rrD⟩ :=
            ih rest base _ hsz1 ciF ciD hFr hDr hfetchr hnen.2 hbase
              (hastr _ (fun q hq => cgD q (f1growD q hq)))
          refine ⟨rerr, riF, riD,
            fun e he => rgF e (cgF e he),
            fun q hq => rgD q (cgD q (f1growD q hq)), ?_, ?_⟩
          · intro pr hpr
            simp only [filePosL, List.mem_append] at hpr
            rcases hpr with h1 | h1
            · simp only [filePos] at h1
              rcases List.mem_map.mp h1 with ⟨y, hy, rfl⟩
              have h2 := crF y hy
              rcases List.any_eq_true.mp h2 with ⟨e, he, hep⟩
              have hepq : e.1 = (base ++ [nm]) ++ y.1 := by simpa using hep
              have h3 := fileIn_of_mem (rgF e he)
              rw [hepq] at h3
              simpa [List.append_assoc] using h3
            · exact rrF pr h1
          · intro r hr
            simp only [folderPosL, List.mem_append] at hr
            rcases hr with h1 | h1
            · simp only [folderPos, List.mem_cons] at h1
              rcases h1 with rfl | h1
              · rw [dirIn_iff_mem]
                exact rgD _ (cgD _ ((dirIn_iff_mem _ _).mp f1dest))
              · rcases List.mem_map.mp h1 with ⟨y, hy, rfl⟩
                have h2 := crD y hy
                rw [dirIn_iff_mem] at h2 ⊢
                have h3 := rgD _ h2
                simpa [List.append_assoc] using h3
            · exact rrD r h1

theorem pairNoProperLead_all {L : List (List String)} (h : pairNoProperLead L = true) :
    ∀ a ∈ L, ∀ b ∈ L, properLeadOf a b = false := by
  induction L with
  | nil => intro a ha; cases ha
  | cons x rest ih =>
    simp only [pairNoProperLead, Bool.and_eq_true, List.all_eq_true] at h
    obtain ⟨hx, hrest⟩ := h
    intro a ha b hb
    rcases List.mem_cons.mp ha with rfl | ha2
    · rcases List.mem_cons.mp hb with rfl | hb2
      · simp [properLeadOf]
      · have h2 := hx b hb2
        simp only [Bool.and_eq_true, Bool.not_eq_true'] at h2
        exact h2.1
    · rcases List.mem_cons.mp hb with rfl | hb2
      · have h2 := hx a ha2
        simp only [Bool.and_eq_true, Bool.not_eq_true'] at h2
        exact h2.2
      · exact ih hrest a ha2 b hb2

theorem take_append_cons (a : FPath) (f : String) (y : FPath) (j : Nat)
    (_hj : j ≤ y.length) :
    (a ++ f :: y).take (a.length + 1 + j) = a ++ f :: y.take j := by
  rw [show a ++ f :: y = (a ++ [f]) ++ y by simp]
  rw [List.take_append_eq_append_take]
  rw [List.take_of_length_le (by simp)]
  have h2 : a.length + 1 + j - (a ++ [f]).length = j := by simp
  rw [h2]
  simp

theorem dropLast_take {α : Type} {l : List α} {j : Nat} (hj : j ≤ l.length - 1) :
    l.dropLast.take j = l.take j := by
  rw [List.dropLast_eq_take, List.take_take]
  congr 1
  omega

theorem c2_disjoint (base : FPath) (friendly : String) (keys : List String)
    (hpf : pairNoProperLead (keys.map splitSegs) = true) :
    ∀ q, q ∈ keys.map (derivedFPath base friendly) →
      q ∉ prefixClosure ((base ++ [friendly]) ::
        keys.map (fun K => base ++ friendly :: (splitSegs K).dropLast)) := by
  intro q hq hqD
  rcases List.mem_map.mp hq with ⟨K, hK, rfl⟩
  have hlen : 1 ≤ (splitSegs K).length := List.length_pos.mpr (splitSegs_ne_nil K)
  simp only [prefixClosure, List.mem_cons, List.mem_flatMap] at hqD
  rcases hqD with h0 | ⟨x, hx, hqx⟩
  · have h1 := congrArg List.length h0
    simp [derivedFPath] at h1
  · rcases (mem_prefixesOf_iff _ x).mp hqx with ⟨i, hi, heq⟩
    rcases hx with rfl | hx2
    · have h1 := congrArg List.length heq
      simp [derivedFPath, List.length_take] at h1
      simp at hi
      omega
    · rcases List.mem_map.mp hx2 with ⟨K2, hK2, rfl⟩
      have hlen2 : 1 ≤ (splitSegs K2).length := List.length_pos.mpr (splitSegs_ne_nil K2)
      have hxl : (base ++ friendly :: (splitSegs K2).dropLast).length
          = base.length + 1 + ((splitSegs K2).length - 1) := by
        simp [List.length_dropLast]
        omega
      by_cases hcase : i + 1 ≤ base.length
      · have h1 := congrArg List.length heq
        simp [derivedFPath, List.length_take] at h1
        omega
      · push_neg at hcase
        have hile : i < base.length + 1 + ((splitSegs K2).length - 1) := by
          rw [hxl] at hi; exact hi
        have hj2 : i + 1 = base.length + 1 + (i - base.length) := by omega
        have hj2le : i - base.length ≤ (splitSegs K2).dropLast.length := by
          simp [List.length_dropLast]
          omega
        have htake : (base ++ friendly :: (splitSegs K2).dropLast).take (i + 1)
            = base ++ friendly :: ((splitSegs K2).dropLast).take (i - base.length) := by
          rw [hj2]
          exact take_append_cons base friendly _ _ hj2le
        rw [htake] at heq
        have heq2 : splitSegs K = ((splitSegs K2).dropLast).take (i - base.length) := by
          have h3 : (base ++ [friendly]) ++ splitSegs K
              = (base ++ [friendly]) ++ ((splitSegs K2).dropLast).take (i - base.length) := by
            have := heq
            simp only [derivedFPath] at this
            simpa using this
          exact List.append_cancel_left h3
        have hKlen : (splitSegs K).length = i - base.length := by
          rw [heq2]
          simp only [List.length_take, List.length_dropLast]
          omega
        have hdl : ((splitSegs K2).dropLast).take (i - base.length)
            = (splitSegs K2).take (i - base.length) := by
          apply dropLast_take
          simpa [List.length_dropLast] using hj2le
        have hlead : properLeadOf (splitSegs K) (splitSegs K2) = true := by
          simp only [properLeadOf, isLeadOf, Bool.and_eq_true, decide_eq_true_iff]
          constructor
          · rw [hKlen, ← hdl, ← heq2]
          · intro hcontra
            have h4 := congrArg List.length hcontra
            simp only [List.length_dropLast] at hj2le
            omega
        have h5 := pairNoProperLead_all hpf (splitSegs K)
          (List.mem_map_of_mem _ hK) (splitSegs K2) (List.mem_map_of_mem _ hK2)
        rw [hlead] at h5
        cases h5

/-- Claim C2 amended: for a listing whose keys have nonempty, dot-free
segments and in which no key is a proper separator-prefix of another, if the
hierarchy builds and every listed object is fetchable, then cloning into an
empty local tree completes without error, and afterwards a local file exists
at the destination derived from every key K while a local directory exists at
every proper separator-prefix of K. -/
theorem clone_completeness (friendly : String) (keys : List String) (base : FPath)
    (s3 : S3Store) (h : Node)
    (hfr : friendly ≠ "")
    (hwf : wellFormedKeys keys = true)
    (hpf : pairNoProperLead (keys.map splitSegs) = true)
    (hb : getBucketHierarchy friendly keys = .ok h)
    (hfetch : keys.all (fun K => (s3get s3 K).isSome) = true) :
    (cloneCloudRepo s3 h base emptyFS).err = none
    ∧ cloneComplete keys base friendly (cloneCloudRepo s3 h base emptyFS).fs = true := by
  unfold getBucketHierarchy at hb
  obtain ⟨cs2, rfl⟩ := buildGo_ok_folder keys friendly "" false [] h hb
  obtain ⟨hfb, hdb⟩ := buildGo_bounds keys _ _ hb
  have hwfseg : ∀ K ∈ keys, ∀ s ∈ splitSegs K, s ≠ "" := by
    intro K hK s hs
    have h1 := List.all_eq_true.mp hwf K hK
    have h2 := List.all_eq_true.mp h1 s hs
    simp only [Bool.and_eq_true, Bool.not_eq_true'] at h2
    simpa using h2.1.1
  have hne : namesNE (.folder friendly "" false cs2) = true :=
    buildGo_namesNE keys _ _ hwfseg hb (by simp [namesNE, namesNEL, hfr])
  have hdisj := c2_disjoint base friendly keys hpf
  have hDcl := prefixClosure_closed
    (L := (base ++ [friendly]) :: keys.map (fun K => base ++ friendly :: (splitSegs K).dropLast))
  have hHF : ∀ pr, pr ∈ filePosL [Node.folder friendly "" false cs2] →
      base ++ pr.1 ∈ keys.map (derivedFPath base friendly) := by
    intro pr hpr
    simp only [filePosL, List.append_nil] at hpr
    rcases hfb pr hpr with h1 | ⟨K, hK, rfl, hKne⟩
    · simp [filePos, filePosL] at h1
    · refine List.mem_map.mpr ⟨K, hK, ?_⟩
      simp [derivedFPath, Node.name]
  have hHD : ∀ r, r ∈ folderPosL [Node.folder friendly "" false cs2] →
      base ++ r ∈ prefixClosure ((base ++ [friendly]) ::
        keys.map (fun K => base ++ friendly :: (splitSegs K).dropLast)) := by
    intro r hr
    simp only [folderPosL, List.append_nil] at hr
    rcases hdb r hr with h1 | ⟨K, hK, j, hj, rfl⟩
    · simp only [folderPos, folderPosL, List.map_nil, List.mem_singleton] at h1
      subst h1
      exact mem_prefixClosure_self (by simp)
    · have hx : base ++ friendly :: (splitSegs K).dropLast ∈
          (base ++ [friendly]) :: keys.map (fun K => base ++ friendly :: (splitSegs K).dropLast) := by
        simp only [List.mem_cons]
        exact Or.inr (List.mem_map.mpr ⟨K, hK, rfl⟩)
      have htk := take_mem_prefixClosure hx (base.length + 1 + j)
        (by
          have h9 := hj
          simp only [List.length_append, List.length_cons]
          omega)
      rw [take_append_cons base friendly _ j hj] at htk
      simpa [Node.name] using htk
  have hHfetch : ∀ pr, pr ∈ filePosL [Node.folder friendly "" false cs2] →
      (s3get s3 pr.2).isSome = true := by
    intro pr hpr
    simp only [filePosL, List.append_nil] at hpr
    rcases hfb pr hpr with h1 | ⟨K, hK, rfl, hKne⟩
    · simp [filePos, filePosL] at h1
    · exact List.all_eq_true.mp hfetch K hK
  have hbaseD : base ∈ prefixClosure ((base ++ [friendly]) ::
      keys.map (fun K => base ++ friendly :: (splitSegs K).dropLast)) := by
    have htk := @take_mem_prefixClosure (base ++ [friendly])
      ((base ++ [friendly]) :: keys.map (fun K => base ++ friendly :: (splitSegs K).dropLast))
      (by simp) base.length (by simp)
    rwa [List.take_left] at htk
  obtain ⟨herr, -, -, -, -, hrF, hrD⟩ :=
    cloneGo_invariant s3 (keys.map (derivedFPath base friendly)) _ hdisj hDcl
      (nodeSize (.folder friendly "" false cs2)) [.folder friendly "" false cs2] base emptyFS
      (by simp [nodesSize])
      (by intro e he; simp [emptyFS] at he)
      (by intro q hq; simp [emptyFS] at hq)
      hHF hHD hHfetch
      (by simp [namesNEL, hne])
      hbaseD
      (by intro ht; simp [hasTopFile] at ht)
  refine ⟨herr, ?_⟩
  apply List.all_eq_true.mpr
  intro K hK
  have hcr := buildGo_creates keys _ _ hb K hK
  have hsegK : (splitSegs K).dropLast ++ [(splitSegs K).getLastD ""] = splitSegs K :=
    dropLast_append_getLastD "" (splitSegs K) (splitSegs_ne_nil K)
  simp only [Bool.and_eq_true]
  constructor
  · have hmem : (friendly :: splitSegs K, K) ∈
        filePos (Node.folder friendly "" false cs2) := by
      have h1 := hcr.1
      rw [List.cons_append, hsegK] at h1
      simpa [Node.name] using h1
    have h2 := hrF (friendly :: splitSegs K, K) (by simp [filePosL, hmem])
    simpa [derivedFPath] using h2
  · apply List.all_eq_true.mpr
    intro i hi
    have hiR : i < (splitSegs K).length - 1 := List.mem_range.mp hi
    have hj : i + 1 ≤ (splitSegs K).dropLast.length := by
      simp only [List.length_dropLast]
      omega
    have hmem : friendly :: (splitSegs K).dropLast.take (i + 1) ∈
        folderPos (Node.folder friendly "" false cs2) := by
      have h1 := hcr.2 (i + 1) hj
      simpa [Node.name] using h1
    have h2 := hrD _ (by simp only [folderPosL, List.append_nil]; exact hmem)
    rw [dropLast_take (by simpa [List.length_dropLast] using hj)] at h2
    simpa using h2

theorem clone_completeness_witness :
    (cloneCloudRepo c2ws3 c2wtree ["base"] emptyFS).err = none
    ∧ cloneComplete ["a.txt", "b/c.txt"] ["base"] "repo"
        (cloneCloudRepo c2ws3 c2wtree ["base"] emptyFS).fs = true :=
  clone_completeness "repo" ["a.txt", "b/c.txt"] ["base"] c2ws3 c2wtree
    (by decide) rfl rfl rfl rfl

/-! ## Child name uniqueness (claim C6) -/

theorem splitAtName_none {s : String} :
    ∀ {cs : List Node}, splitAtName s cs = none → ∀ c ∈ cs, c.name ≠ s := by
  intro cs
  induction cs with
  | nil => intro _ c hc; cases hc
  | cons d ds ih =>
    intro h c hc
    simp only [splitAtName] at h
    split at h
    · cases h
    · rename_i hd
      rcases List.mem_cons.mp hc with rfl | hc2
      · simpa using hd
      · split at h
        · rename_i hrec
          exact ih hrec c hc2
        · cases h

theorem isLeadOf_self (a : List String) : isLeadOf a a = true := by
  simp [isLeadOf, List.take_length]

theorem properLeadOf_cons (a : String) (x y : List String) :
    properLeadOf (a :: x) (a :: y) = properLeadOf x y := by
  simp only [properLeadOf, isLeadOf, List.length_cons, List.take_succ_cons]
  by_cases h1 : y.take x.length = x
  · by_cases h2 : x = y
    · simp [h1, h2]
    · simp [h1, h2]
  · have : ¬(a :: y.take x.length = a :: x) := by simp [h1]
    simp [h1, this]

theorem childNamesUniqueL_iff :
    ∀ (l : List Node), childNamesUniqueL l = true ↔ ∀ c ∈ l, childNamesUnique c = true := by
  intro l
  induction l with
  | nil => simp [childNamesUniqueL]
  | cons c cs ih =>
    simp only [childNamesUniqueL, Bool.and_eq_true, ih]
    constructor
    · rintro ⟨h1, h2⟩ d hd
      rcases List.mem_cons.mp hd with rfl | hd2
      · exact h1
      · exact h2 d hd2
    · intro hall
      exact ⟨hall c (by simp), fun d hd => hall d (by simp [hd])⟩

theorem pairNoLead_cons {x : List String} {rest : List (List String)}
    (h : pairNoLead (x :: rest) = true) :
    (∀ b ∈ rest, isLeadOf x b = false ∧ isLeadOf b x = false)
    ∧ pairNoLead rest = true := by
  simp only [pairNoLead, Bool.and_eq_true, List.all_eq_true] at h
  refine ⟨fun b hb => ?_, h.2⟩
  have h2 := h.1 b hb
  simp only [Bool.and_eq_true, Bool.not_eq_true'] at h2
  exact h2

theorem insertGo_unique (key : String) (parts : List String) :
    ∀ (rem : List String) (i : Nat) (cur cur2 : Node),
      insertGo key parts i rem cur = .ok cur2 →
      childNamesUnique cur = true →
      (∀ pr, pr ∈ filePos cur →
        properLeadOf pr.1 (cur.name :: rem ++ [parts.getLastD ""]) = false
        ∧ pr.1 ≠ cur.name :: rem ++ [parts.getLastD ""]) →
      (∀ r, r ∈ folderPos cur → r ≠ cur.name :: rem ++ [parts.getLastD ""]) →
      childNamesUnique cur2 = true := by
  intro rem
  induction rem with
  | nil =>
    intro i cur cur2 h hu hfile hfold
    cases cur with
    | file a b m => rw [insertGo_file] at h; cases h
    | folder n p m cs =>
      simp only [insertGo, Except.ok.injEq] at h
      subst h
      simp only [childNamesUnique, Bool.and_eq_true, decide_eq_true_iff] at hu ⊢
      obtain ⟨hnd, hul⟩ := hu
      have hnotin : parts.getLastD "" ∉ cs.map Node.name := by
        intro hmem
        rcases List.mem_map.mp hmem with ⟨c, hc, hcname⟩
        cases c with
        | file cn cp cm =>
          have hpos : ([n, cn], cp) ∈ filePos (Node.folder n p m cs) := by
            simp only [filePos]
            exact List.mem_map.mpr ⟨([cn], cp), mem_filePosL_of_mem hc (by simp [filePos]), rfl⟩
          have h2 := (hfile _ hpos).2
          apply h2
          simp only [Node.name] at hcname ⊢
          simp [hcname]
        | folder cn cp cm ccs =>
          have hpos : [n, cn] ∈ folderPos (Node.folder n p m cs) := by
            simp only [folderPos, List.mem_cons]
            exact Or.inr (List.mem_map.mpr ⟨[cn], mem_folderPosL_of_mem hc (by simp [folderPos]), rfl⟩)
          have h2 := hfold _ hpos
          apply h2
          simp only [Node.name] at hcname ⊢
          simp [hcname]
      constructor
      · rw [List.map_append]
        simp only [List.map_cons, List.map_nil, Node.name]
        rw [List.nodup_append]
        exact ⟨hnd, List.nodup_singleton _, by
          intro a ha hb
          simp only [List.mem_singleton] at hb
          subst hb
          exact hnotin ha⟩
      · rw [(childNamesUniqueL_iff _)]
        intro c hc
        rcases List.mem_append.mp hc with h1 | h1
        · exact (childNamesUniqueL_iff cs).mp hul c h1
        · simp only [List.mem_singleton] at h1
          subst h1
          rfl
  | cons s rest ih =>
    intro i cur cur2 h hu hfile hfold
    cases cur with
    | file a b m => rw [insertGo_file] at h; cases h
    | folder n p m cs =>
      simp only [insertGo] at h
      split at h
      · rename_i pre c suf hsp
        obtain ⟨hcs, hcname⟩ := splitAtName_some hsp
        split at h
        · cases h
        · rename_i c2 hins
          simp only [Except.ok.injEq] at h
          subst h
          subst hcs
          have hc2name : c2.name = c.name := (insertGo_ok_name _ _ _ _ _ _ hins).1
          simp only [childNamesUnique, Bool.and_eq_true, decide_eq_true_iff] at hu ⊢
          obtain ⟨hnd, hul⟩ := hu
          have hcmem : c ∈ pre ++ c :: suf := by simp
          have huc : childNamesUnique c = true :=
            (childNamesUniqueL_iff _).mp hul c hcmem
          have hfc : ∀ pr, pr ∈ filePos c →
              properLeadOf pr.1 (c.name :: rest ++ [parts.getLastD ""]) = false
              ∧ pr.1 ≠ c.name :: rest ++ [parts.getLastD ""] := by
            intro pr hpr
            have hpos : (n :: pr.1, pr.2) ∈ filePos (Node.folder n p m (pre ++ c :: suf)) := by
              simp only [filePos]
              exact List.mem_map.mpr ⟨pr, mem_filePosL_of_mem hcmem hpr, rfl⟩
            have h2 := hfile _ hpos
            constructor
            · have h3 := h2.1
              simp only [Node.name] at h3
              rw [show (n :: (s :: rest)) ++ [parts.getLastD ""]
                  = n :: ((s :: rest) ++ [parts.getLastD ""]) by simp] at h3
              rw [properLeadOf_cons] at h3
              rw [hcname]
              simpa using h3
            · intro hcontra
              apply h2.2
              simp only [Node.name]
              simp [hcontra, hcname]
          have hdc : ∀ r, r ∈ folderPos c →
              r ≠ c.name :: rest ++ [parts.getLastD ""] := by
            intro r hr hcontra
            have hpos : n :: r ∈ folderPos (Node.folder n p m (pre ++ c :: suf)) := by
              simp only [folderPos, List.mem_cons]
              exact Or.inr (List.mem_map.mpr ⟨r, mem_folderPosL_of_mem hcmem hr, rfl⟩)
            apply hfold _ hpos
            simp only [Node.name]
            simp [hcontra, hcname]
          have huc2 := ih (i + 1) c c2 hins huc hfc hdc
          constructor
          · have : (pre ++ c2 :: suf).map Node.name = (pre ++ c :: suf).map Node.name := by
              simp [List.map_append, List.map_cons, hc2name]
            rw [this]
            exact hnd
          · rw [(childNamesUniqueL_iff _)]
            intro d hd
            rcases List.mem_append.mp hd with h1 | h1
            · exact (childNamesUniqueL_iff _).mp hul d (by simp [h1])
            · rcases List.mem_cons.mp h1 with rfl | h2
              · exact huc2
              · exact (childNamesUniqueL_iff _).mp hul d (by simp [h2])
      · rename_i hsp
        split at h
        · cases h
        · rename_i c2 hins
          simp only [Except.ok.injEq] at h
          subst h
          have hc2name : c2.name = s := by
            have := (insertGo_ok_name _ _ _ _ _ _ hins).1
            simpa [Node.name] using this
          simp only [childNamesUnique, Bool.and_eq_true, decide_eq_true_iff] at hu ⊢
          obtain ⟨hnd, hul⟩ := hu
          have hfresh : childNamesUnique
              (.folder s (joinSegs (parts.take (i + 1))) false []) = true := by
            simp [childNamesUnique, childNamesUniqueL]
          have hfc : ∀ pr, pr ∈ filePos
              (.folder s (joinSegs (parts.take (i + 1))) false []) →
              properLeadOf pr.1 ((Node.folder s (joinSegs (parts.take (i + 1))) false []).name
                :: rest ++ [parts.getLastD ""]) = false
              ∧ pr.1 ≠ (Node.folder s (joinSegs (parts.take (i + 1))) false []).name
                :: rest ++ [parts.getLastD ""] := by
            intro pr hpr
            simp [filePos, filePosL] at hpr
          have hdc : ∀ r, r ∈ folderPos
              (.folder s (joinSegs (parts.take (i + 1))) false []) →
              r ≠ (Node.folder s (joinSegs (parts.take (i + 1))) false []).name
                :: rest ++ [parts.getLastD ""] := by
            intro r hr
            simp only [folderPos, folderPosL, List.map_nil, List.mem_singleton] at hr
            subst hr
            intro hcontra
            have := congrArg List.length hcontra
            simp [Node.name] at this
          have huc2 := ih (i + 1) _ c2 hins hfresh hfc hdc
          have hnotin : s ∉ cs.map Node.name := by
            intro hmem
            rcases List.mem_map.mp hmem with ⟨c, hc, hcname⟩
            exact splitAtName_none hsp c hc hcname
          constructor
          · rw [List.map_append]
            simp only [List.map_cons, List.map_nil, hc2name]
            rw [List.nodup_append]
            exact ⟨hnd, List.nodup_singleton _, by
              intro a ha hb
              simp only [List.mem_singleton] at hb
              subst hb
              exact hnotin ha⟩
          · rw [(childNamesUniqueL_iff _)]
            intro d hd
            rcases List.mem_append.mp hd with h1 | h1
            · exact (childNamesUniqueL_iff _).mp hul d h1
            · simp only [List.mem_singleton] at h1
              subst h1
              exact huc2

theorem buildGo_unique :
    ∀ (keys : List String) (h h2 : Node),
      buildGo keys h = .ok h2 →
      childNamesUnique h = true →
      pairNoLead (keys.map splitSegs) = true →
      (∀ pr K, pr ∈ filePos h → K ∈ keys →
        properLeadOf pr.1 (h.name :: splitSegs K) = false
        ∧ pr.1 ≠ h.name :: splitSegs K) →
      (∀ r K, r ∈ folderPos h → K ∈ keys → r ≠ h.name :: splitSegs K) →
      childNamesUnique h2 = true := by
  intro keys
  induction keys with
  | nil =>
    intro h h2 hb hu _ _ _
    simp only [buildGo, Except.ok.injEq] at hb
    subst hb
    exact hu
  | cons k ks ih =>
    intro h h2 hb hu hpn hf hd
    simp only [buildGo] at hb
    split at hb
    · cases hb
    · rename_i h1 hins
      have hname : h1.name = h.name := (insertGo_ok_name _ _ _ _ _ _ hins).1
      have htg : (h.name :: (splitSegs k).dropLast) ++ [(splitSegs k).getLastD ""]
          = h.name :: splitSegs k := by
        rw [List.cons_append,
          dropLast_append_getLastD "" (splitSegs k) (splitSegs_ne_nil k)]
      have hu1 : childNamesUnique h1 = true := by
        refine insertGo_unique k (splitSegs k) (splitSegs k).dropLast 0 h h1 hins hu
          ?_ ?_
        · intro pr hpr
          rw [htg]
          exact hf pr k hpr (by simp)
        · intro r hr
          rw [htg]
          exact hd r k hr (by simp)
      have hpn2 := pairNoLead_cons (by simpa using hpn)
      obtain ⟨hfb, hdb⟩ :=
        insertGo_bounds k (splitSegs k) (splitSegs k).dropLast 0 h h1 hins
      have hlead : ∀ K ∈ ks, isLeadOf (splitSegs k) (splitSegs K) = false
          ∧ isLeadOf (splitSegs K) (splitSegs k) = false := by
        intro K hK
        exact hpn2.1 (splitSegs K) (List.mem_map.mpr ⟨K, hK, rfl⟩)
      refine ih h1 h2 hb hu1 hpn2.2 ?_ ?_
      · intro pr K hpr hK
        rw [hname]
        rcases hfb pr hpr with h3 | h3
        · exact hf pr K h3 (by simp [hK])
        · have hpr1 : pr.1 = h.name :: splitSegs k := by
            rw [h3, htg]
          rw [hpr1]
          constructor
          · rw [properLeadOf_cons]
            simp [properLeadOf, (hlead K hK).1]
          · intro hcontra
            have hseq : splitSegs k = splitSegs K := by
              simpa using hcontra
            have := (hlead K hK).1
            rw [hseq] at this
            rw [isLeadOf_self] at this
            cases this
      · intro r K hr hK
        rw [hname]
        rcases hdb r hr with h3 | ⟨j, hj, h3⟩
        · exact hd r K h3 (by simp [hK])
        · rw [h3]
          intro hcontra
          have hseq : splitSegs K = ((splitSegs k).dropLast).take j := by
            have := (List.cons.injEq _ _ _ _).mp hcontra
            exact this.2.symm
          have hjlen : j ≤ (splitSegs k).length - 1 := by
            have := hj
            simp only [List.length_dropLast] at this
            omega
          have hseq2 : splitSegs K = (splitSegs k).take j := by
            rw [hseq, dropLast_take hjlen]
          have hKlen : (splitSegs K).length = j := by
            rw [hseq2, List.length_take]
            have hk2 : j ≤ (splitSegs k).length := by omega
            omega
          have : isLeadOf (splitSegs K) (splitSegs k) = true := by
            simp only [isLeadOf, hKlen, decide_eq_true_iff]
            exact hseq2.symm
          rw [(hlead K hK).2] at this
          cases this

theorem childNameOf_eq {p q : FPath} {n : String} (h : childNameOf p q = some n) :
    q = p ++ [n] := by
  simp only [childNameOf] at h
  split at h
  · rename_i hcond
    obtain ⟨hlen, htake⟩ := hcond
    simp only [Option.some.injEq] at h
    subst h
    have hd : (q.drop p.length).length = 1 := by
      rw [List.length_drop]
      omega
    obtain ⟨a, ha⟩ := List.length_eq_one.mp hd
    have hq : q = p ++ [a] := by
      conv_lhs => rw [← List.take_append_drop p.length q]
      rw [htake, ha]
    rw [hq, List.getLastD_concat]
  · cases h

theorem childNameOf_inj {p : FPath} :
    ∀ (q q2 : FPath) (n : String),
      n ∈ childNameOf p q → n ∈ childNameOf p q2 → q = q2 := by
  intro q q2 n h1 h2
  rw [Option.mem_def] at h1 h2
  rw [childNameOf_eq h1, childNameOf_eq h2]

theorem readdirFS_nodup {fs : FS} (hwf : FS.Wf fs) (p : FPath) :
    (readdirFS fs p).Nodup := by
  unfold FS.Wf at hwf
  rcases List.nodup_append.mp hwf with ⟨hA, hB, hAB⟩
  unfold readdirFS
  rw [List.nodup_append]
  refine ⟨hA.filterMap childNameOf_inj, hB.filterMap childNameOf_inj, ?_⟩
  intro n hn1 hn2
  rcases List.mem_filterMap.mp hn1 with ⟨q1, hq1, hc1⟩
  rcases List.mem_filterMap.mp hn2 with ⟨q2, hq2, hc2⟩
  have e1 := childNameOf_eq hc1
  have e2 := childNameOf_eq hc2
  exact hAB hq1 (by rw [e1, ← e2]; exact hq2)

theorem getFolderGo_ok_name (fs : FS) (fuel : Nat) (q : FPath) (c : Node)
    (h : getFolderGo fs fuel q = .ok c) : c.name = lastSeg q := by
  cases fuel with
  | zero => cases h
  | succ fuel =>
    simp only [getFolderGo] at h
    split at h
    · split at h
      · cases h
      · simp only [Except.ok.injEq] at h
        subst h
        rfl
    · split at h
      · simp only [Except.ok.injEq] at h
        subst h
        rfl
      · cases h

theorem foldr_collect_ok (fs : FS) (fuel : Nat) (p : FPath) :
    ∀ (names : List String) (cs : List Node),
      (names.foldr (fun n (acc : Except JsError (List Node)) =>
        match getFolderGo fs fuel (p ++ [n]), acc with
        | .ok c, .ok cs => .ok (c :: cs)
        | .error e, _ => .error e
        | _, .error e => .error e) (Except.ok [])) = .ok cs →
      List.Forall₂ (fun n c => getFolderGo fs fuel (p ++ [n]) = .ok c) names cs := by
  intro names
  induction names with
  | nil =>
    intro cs h
    simp only [List.foldr_nil, Except.ok.injEq] at h
    subst h
    exact List.Forall₂.nil
  | cons n ns ih =>
    intro cs h
    simp only [List.foldr_cons] at h
    cases hg : getFolderGo fs fuel (p ++ [n]) with
    | error e =>
      rw [hg] at h
      simp at h
    | ok c =>
      rw [hg] at h
      cases hacc : ns.foldr (fun n (acc : Except JsError (List Node)) =>
          match getFolderGo fs fuel (p ++ [n]), acc with
          | .ok c, .ok cs => .ok (c :: cs)
          | .error e, _ => .error e
          | _, .error e => .error e) (Except.ok []) with
      | error e =>
        rw [hacc] at h
        simp at h
      | ok cs2 =>
        rw [hacc] at h
        simp only [Except.ok.injEq] at h
        subst h
        exact List.Forall₂.cons hg (ih cs2 hacc)

theorem forall2_names (fs : FS) (fuel : Nat) (p : FPath) :
    ∀ (names : List String) (cs : List Node),
      List.Forall₂ (fun n c => getFolderGo fs fuel (p ++ [n]) = .ok c) names cs →
      cs.map Node.name = names := by
  intro names cs hf
  induction hf with
  | nil => rfl
  | cons h1 h2 ihh =>
    rename_i n c ns cs2
    have hn : c.name = n := by
      rw [getFolderGo_ok_name fs fuel (p ++ [n]) c h1]
      simp [lastSeg, List.getLastD_concat]
    simp [List.map_cons, ihh, hn]

theorem forall2_right_mem {α β : Type} {R : α → β → Prop} :
    ∀ {as : List α} {bs : List β},
      List.Forall₂ R as bs → ∀ b ∈ bs, ∃ a, R a b := by
  intro as bs h
  induction h with
  | nil => intro b hb; cases hb
  | cons h1 _ ih =>
    intro b hb
    rcases List.mem_cons.mp hb with rfl | hb2
    · exact ⟨_, h1⟩
    · exact ih b hb2

theorem getFolderGo_unique (fs : FS) (hwf : FS.Wf fs) :
    ∀ (fuel : Nat) (p : FPath) (h : Node),
      getFolderGo fs fuel p = .ok h → childNamesUnique h = true := by
  intro fuel
  induction fuel with
  | zero => intro p h hh; cases hh
  | succ fuel ih =>
    intro p h hh
    simp only [getFolderGo] at hh
    split at hh
    · split at hh
      · cases hh
      · rename_i cs hcs
        simp only [Except.ok.injEq] at hh
        subst hh
        have hf2 := foldr_collect_ok fs fuel p (readdirFS fs p) cs hcs
        have hnames : cs.map Node.name = readdirFS fs p :=
          forall2_names fs fuel p (readdirFS fs p) cs hf2
        simp only [childNamesUnique, Bool.and_eq_true, decide_eq_true_iff]
        constructor
        · rw [hnames]
          exact readdirFS_nodup hwf p
        · rw [(childNamesUniqueL_iff cs)]
          intro c hc
          rcases forall2_right_mem hf2 c hc with ⟨n, hn⟩
          exact ih (p ++ [n]) c hn
    · split at hh
      · simp only [Except.ok.injEq] at hh
        subst hh
        rfl
      · cases hh

/-- Claim C6 (amended): every folder of a built hierarchy has pairwise
distinct child names, provided that in remote mode no listed key is an
initial segment run of (in particular equal to) another listed key, and
that in local mode the filesystem is well formed.  The unamended claim is
refuted by child_names_unique_cex. -/
theorem child_names_unique (friendly : String) (keys : List String)
    (fs : FS) (p : FPath) (h hl : Node)
    (hpair : pairNoLead (keys.map splitSegs) = true)
    (hb : getBucketHierarchy friendly keys = .ok h)
    (hwf : FS.Wf fs)
    (hlb : getFolderHierarchy fs p = .ok hl) :
    childNamesUnique h = true ∧ childNamesUnique hl = true := by
  constructor
  · unfold getBucketHierarchy at hb
    refine buildGo_unique keys (.folder friendly "" false []) h hb ?_ hpair ?_ ?_
    · simp [childNamesUnique, childNamesUniqueL]
    · intro pr K hpr _
      simp [filePos, filePosL] at hpr
    · intro r K hr _
      simp only [folderPos, folderPosL, List.map_nil, List.mem_singleton] at hr
      subst hr
      intro hcontra
      have hc2 := (List.cons.injEq _ _ _ _).mp hcontra
      exact splitSegs_ne_nil K hc2.2.symm
  · exact getFolderGo_unique fs hwf (fs.dirs.length + 2) p hl hlb

/-- Witness instantiating child_names_unique on the leadfree listing
a.txt, b/c.txt and on the well-formed two-file filesystem c3fs: both built
trees evaluate concretely and every folder of each has distinct child
names. -/
theorem child_names_unique_witness :
    FS.Wf c3fs
    ∧ childNamesUnique (.folder "repo" "" false [.file "a.txt" "a.txt" false,
        .folder "b" "b" false [.file "c.txt" "b/c.txt" false]]) = true
    ∧ childNamesUnique (.folder "r" "r" false [.file "a.txt" "r/a.txt" false,
        .folder "b" "r/b" false [.file "c.txt" "r/b/c.txt" false]]) = true := by
  have hwf : FS.Wf c3fs := by unfold FS.Wf; decide
  have hmain := child_names_unique "repo" ["a.txt", "b/c.txt"] c3fs ["r"]
    (.folder "repo" "" false [.file "a.txt" "a.txt" false,
      .folder "b" "b" false [.file "c.txt" "b/c.txt" false]])
    (.folder "r" "r" false [.file "a.txt" "r/a.txt" false,
      .folder "b" "r/b" false [.file "c.txt" "r/b/c.txt" false]])
    (by decide) rfl hwf rfl
  exact ⟨hwf, hmain.1, hmain.2⟩
